import Mathlib

/-!
Shallow embedding of the `dbt-yaml-description-validator` sources.

Text is modelled as `List Char`.  Python string primitives (`lstrip`,
`rstrip`, `strip`, `splitlines`, `split('\n')`, `'\n'.join`, `isspace`,
`isupper`, `upper`, `lower`) are modelled over the ASCII whitespace set
`{' ', '\t', '\n', '\r', '\x0b', '\x0c'}` and ASCII case maps, matching
CPython's behaviour on ASCII input; line separators are modelled as `'\n'`
(the only separator the sources themselves ever produce or split on).
-/

abbrev Str := List Char

/-- Python `str.isspace` / regex `\s`, restricted to the ASCII whitespace set. -/
def pyIsSpace (c : Char) : Bool :=
  c = ' ' || c = '\t' || c = '\n' || c = '\r' || c = '\x0b' || c = '\x0c'

/-- Horizontal whitespace, the character class `[ \t]` of `spaces._DOUBLE_SPACES`. -/
def hwsChar (c : Char) : Bool := c = ' ' || c = '\t'

/-- Python `str.lstrip()`. -/
def lstrip (s : Str) : Str := s.dropWhile pyIsSpace

/-- Python `str.rstrip()`. -/
def rstrip (s : Str) : Str := (s.reverse.dropWhile pyIsSpace).reverse

/-- Python `str.strip()`. -/
def stripPy (s : Str) : Str := lstrip (rstrip s)

/-- Python `str.rstrip("\n")`. -/
def rstripNl (s : Str) : Str := (s.reverse.dropWhile (fun c => c = '\n')).reverse

/-- Python `str.split('\n')` (always at least one piece; keeps empty pieces). -/
def splitNl : Str → List Str
  | [] => [[]]
  | c :: rest =>
    if c = '\n' then [] :: splitNl rest
    else
      match splitNl rest with
      | [] => [[c]]
      | l :: ls => (c :: l) :: ls

/-- Python `str.splitlines()` (modelled with `'\n'` as the only line break). -/
def splitlinesPy : Str → List Str
  | [] => []
  | c :: rest =>
    if c = '\n' then [] :: splitlinesPy rest
    else
      match splitlinesPy rest with
      | [] => [[c]]
      | l :: ls => (c :: l) :: ls

/-- Python `'\n'.join(...)`. -/
def joinNl : List Str → Str
  | [] => []
  | [l] => l
  | l :: ls => l ++ '\n' :: joinNl ls

/-- Python `str.startswith` on a single needle. -/
def startsWithStr (s p : Str) : Bool := p.isPrefixOf s

/-- Python `str.endswith` on a single needle. -/
def endsWithStr (s p : Str) : Bool := p.isSuffixOf s

-- Frequently used literal fragments (as character lists).
def dotStr : Str := ['.']
def nlStr : Str := ['\n']
def dashSpace : Str := ['-', ' ']
def sq2 : Str := ['\'', '\'']
def dq2 : Str := ['"', '"']

/-- `validators/article.py`: `ARTICLES = ("the ", "a ", "an ")`. -/
def articles : List Str :=
  [['t','h','e',' '], ['a',' '], ['a','n',' ']]

/-- `article.check`: after `lstrip().lower()`, starts with one of the articles. -/
def articleCheck (text : Str) : Bool :=
  let stripped := (lstrip text).map Char.toLower
  articles.any (fun a => startsWithStr stripped a)

/-- `capital.check`: `stripped = text.lstrip(); return bool(stripped) and stripped[0].isupper()`. -/
def capitalCheck (text : Str) : Bool :=
  match lstrip text with
  | [] => false
  | c :: _ => c.isUpper

/-- `capital.fix`: upper-case the first stripped character; note the source
returns `first.upper() + text[idx + 1:]`, i.e. the part of `text` after the
first non-whitespace character — the leading whitespace `text[:idx]` is not
re-attached. -/
def capitalFix (text : Str) : Str :=
  match lstrip text with
  | [] => text
  | first :: rest =>
    if first.isUpper then text
    else first.toUpper :: rest

/-- `period._contains_list_items`: any line whose `lstrip()` starts with `"- "`. -/
def itemLine (l : Str) : Bool := startsWithStr (lstrip l) dashSpace

def containsListItems (text : Str) : Bool :=
  (splitlinesPy text).any itemLine

/-- `period.check`. -/
def periodCheck (text : Str) : Bool :=
  if containsListItems text then true
  else
    let lines := ((splitlinesPy (rstrip text)).filter (fun l => !(stripPy l).isEmpty)).map rstrip
    match lines.getLast? with
    | none => true
    | some l => endsWithStr l dotStr

/-- `period.fix`. -/
def periodFix (text : Str) : Str :=
  if (stripPy text).isEmpty then text
  else if stripPy text = sq2 || stripPy text = dq2 then text
  else
    let hadTrailingNewline := endsWithStr text nlStr
    let lines := splitlinesPy (rstripNl text)
    match lines with
    | [] => text
    | _ :: _ =>
      let last := rstrip (lines.getLastD [])
      let lines' :=
        if containsListItems text then
          if endsWithStr last dotStr then lines.dropLast ++ [last.dropLast] else lines
        else
          if endsWithStr last dotStr then lines else lines.dropLast ++ [last ++ dotStr]
      let out := joinNl lines'
      if hadTrailingNewline then out ++ nlStr else out

/-- `spaces._DOUBLE_SPACES.search(text) is not None`, i.e. the regex
`(?<!^)(?<!\n)[ \t]{2,}` has a match.  The scan carries a flag saying whether
the current position is allowed by the two look-behinds (some previous
character exists and is not `'\n'`). -/
def hwsHead : Str → Bool
  | [] => false
  | c :: _ => hwsChar c

/-- The look-behind flag of the position following character `c`: the
position is allowed unless `c` is a newline. -/
def allowedAfter (c : Char) : Bool := decide (c ≠ '\n')

def hasDoubleSpace : Bool → Str → Bool
  | _, [] => false
  | allowed, c :: rest =>
    (allowed && hwsChar c && hwsHead rest) || hasDoubleSpace (allowedAfter c) rest

/-- `spaces.check`. -/
def spacesCheck (text : Str) : Bool := !hasDoubleSpace false text

/-- State of the `re.sub` scan: either consuming the remainder of a matched
`[ \t]{2,}` run (one `' '` has already been emitted for it), or scanning
normally with the look-behind flag (`allowed` = some previous character
exists and is not `'\n'`). -/
inductive SubState where
  | skipRun : SubState
  | scanning : Bool → SubState

/-- `spaces._DOUBLE_SPACES.sub(" ", text)`: the left-to-right scan of
`re.sub`; a match consumes the maximal `[ \t]` run (greedy `{2,}`), replaced
by a single space; scanning resumes after the run, where the look-behind sees
the run's last character (never a newline, so the position is allowed). -/
def subDoubleSpace : SubState → Str → Str
  | _, [] => []
  | .skipRun, c :: rest =>
    if hwsChar c then subDoubleSpace .skipRun rest
    else c :: subDoubleSpace (.scanning (allowedAfter c)) rest
  | .scanning allowed, c :: rest =>
    if allowed && hwsChar c && hwsHead rest then
      ' ' :: subDoubleSpace .skipRun rest
    else
      c :: subDoubleSpace (.scanning (allowedAfter c)) rest

/-- `spaces.fix`. -/
def spacesFix (text : Str) : Str := subDoubleSpace (.scanning false) text

/-- `symbol.py`: `SYMBOL_PATTERN = re.compile(r"[€$£%#@&*^+~]")`. -/
def symbolChar (c : Char) : Bool :=
  c = '€' || c = '$' || c = '£' || c = '%' || c = '#' || c = '@' ||
  c = '&' || c = '*' || c = '^' || c = '+' || c = '~'

/-- `symbol.check`: no forbidden symbol occurs. -/
def symbolsCheck (text : Str) : Bool := !text.any symbolChar

/-- `runner.validate_text`: empty/absent text is valid without calling `check`. -/
def validateText (check : Str → Bool) : Option Str → Bool
  | none => true
  | some t => if t = [] then true else check t

/-- "Every run of two or more horizontal whitespace characters occurs at the
very start of a line."  A maximal `[ \t]`-run of length ≥ 2 that does *not*
start at the very start of a line is exactly an occurrence of three
consecutive characters `x, h₁, h₂` with `h₁, h₂` horizontal whitespace and
`x` neither horizontal whitespace (else the run starts earlier) nor `'\n'`
(else the run starts at a line start).  The scan flag `danger` records
whether such an `x` immediately precedes the current position. -/
def bigRunsOnlyAtLineStartAux : Bool → Str → Bool
  | _, [] => true
  | danger, c :: rest =>
    (!(danger && hwsChar c && hwsHead rest)) &&
      bigRunsOnlyAtLineStartAux (!hwsChar c && allowedAfter c) rest

def bigRunsOnlyAtLineStart (s : Str) : Bool := bigRunsOnlyAtLineStartAux false s

/-- No three consecutive horizontal whitespace characters, i.e. every maximal
`[ \t]`-run has length at most two.  The counter is the number of immediately
preceding consecutive horizontal whitespace characters. -/
def noTripleHwsAux : Nat → Str → Bool
  | _, [] => true
  | k, c :: rest =>
    if hwsChar c then decide (k < 2) && noTripleHwsAux (k + 1) rest
    else noTripleHwsAux 0 rest

def noTripleHws (s : Str) : Bool := noTripleHwsAux 0 s

/-- Look-behind flag of the `re.sub` scan state: inside a consumed run the
previous character is a run character (never `'\n'`), so the position is
allowed. -/
def subFlag : SubState → Bool
  | .skipRun => true
  | .scanning b => b



/-! ## The patch engine: `runner.fix_yaml_file_in_place`

The file's text is split on `'\n'`; the scan walks the lines exactly as the
source's `while i < len(lines)` loop does.  The `fuel` argument is a
termination device only: every step consumes at least one line, so running
with `fuel = lines.length` never hits the out-of-fuel branch. -/

def blockIndicators : List Str :=
  [['|'], ['|', '-'], ['|', '+'], ['>'], ['>', '-'], ['>', '+']]

def descToken : Str := ("description:").toList

/-- Substring test, scanning left to right as Python `in` does. -/
def strContains (p : Str) : Str → Bool
  | [] => p.isPrefixOf []
  | c :: rest => p.isPrefixOf (c :: rest) || strContains p rest

/-- Python `'description:' in line`. -/
def hasDescToken (line : Str) : Bool := strContains descToken line

/-- `re.match(r'^(\s*description:\s*)(.*)$', line)`: greedy leading
whitespace, the literal key, greedy whitespace, and the remainder as the
value.  (The `\s*` runs cannot backtrack into the literal, so greedy
`takeWhile` is exact.) -/
def matchDescLine (line : Str) : Option (Str × Str) :=
  let ws := line.takeWhile pyIsSpace
  let rest := line.dropWhile pyIsSpace
  if descToken.isPrefixOf rest then
    let after := rest.drop descToken.length
    some (ws ++ descToken ++ after.takeWhile pyIsSpace, after.dropWhile pyIsSpace)
  else none

/-- `len(line) - len(line.lstrip())`. -/
def indentOf (l : Str) : Nat := l.length - (lstrip l).length

/-- The block-collection loop's per-line decision (`True` = the line is
consumed into the block, `False` = the loop breaks), mirroring the chain
`if next_line.strip() == '' ... elif not next_line[0].isspace() ... elif
len - len(lstrip) <= base_indent and next_line.lstrip() ... else include`.
A blank line never reaches the `next_line[0]` access, so the default for an
empty line is irrelevant. -/
def blockTakes (base : Nat) (l : Str) : Bool :=
  if (stripPy l).isEmpty then true
  else if !(pyIsSpace (l.headD ' ')) then false
  else if indentOf l ≤ base ∧ lstrip l ≠ [] then
    (if l.contains ':' ∧ indentOf l ≤ base then false else true)
  else true

def collectBlock (base : Nat) : List Str → List Str × List Str
  | [] => ([], [])
  | l :: rest =>
    if blockTakes base l then
      let p := collectBlock base rest
      (l :: p.1, p.2)
    else ([], l :: rest)

/-- `bl[block_indent:] if len(bl) > block_indent else bl.lstrip()` for a
non-blank line, `''` for a blank one. -/
def strippedOfLine (blockIndent : Nat) (bl : Str) : Str :=
  if !(stripPy bl).isEmpty then
    (if blockIndent < bl.length then bl.drop blockIndent else lstrip bl)
  else []

/-- The source's `while` loop, carried as explicit state: `i` is the index
into the input `lines` (the number of input lines consumed so far), `acc` is
`new_lines`, `m` is `modified`.  The block branch mirrors the source exactly,
including the aliasing of `block_start`: it is an *input* index (`i + 1`),
yet `new_lines` is sliced and truncated with it
(`block_lines = new_lines[block_start:]`, `del new_lines[block_start:]`), so
after an earlier replacement that changed the line count the slice is
misaligned.  The `fuel` argument is a termination device only: every
iteration consumes at least one input line, so running with
`fuel = lines.length` never hits the out-of-fuel branch. -/
def fixAux (fixFn : Str → Str) : Nat → Nat → List Str → List Str → Bool → List Str × Bool
  | 0, _, ls, acc, m => (acc ++ ls, m)
  | _ + 1, _, [], acc, m => (acc, m)
  | fuel + 1, i, line :: rest, acc, m =>
    if hasDescToken line then
      match matchDescLine line with
      | some pv =>
        if pv.2 = [] ∨ pv.2 ∈ blockIndicators then
          let base := indentOf line
          let cb := collectBlock base rest
          let acc1 := acc ++ line :: cb.1
          let strippedLines := (acc1.drop (i + 1)).map (strippedOfLine (base + 2))
          if strippedLines.isEmpty then
            fixAux fixFn fuel (i + 1 + cb.1.length) cb.2 acc1 m
          else
            let blockContent := rstrip (joinNl strippedLines)
            if fixFn blockContent ≠ blockContent then
              fixAux fixFn fuel (i + 1 + cb.1.length) cb.2
                (acc1.take (i + 1) ++
                  (splitNl (fixFn blockContent)).map
                    (fun fl => if fl ≠ [] then List.replicate (base + 2) ' ' ++ fl else []))
                true
            else
              fixAux fixFn fuel (i + 1 + cb.1.length) cb.2 acc1 m
        else
          if fixFn pv.2 ≠ pv.2 then
            fixAux fixFn fuel (i + 1) rest (acc ++ [pv.1 ++ fixFn pv.2]) true
          else
            fixAux fixFn fuel (i + 1) rest (acc ++ [line]) m
      | none => fixAux fixFn fuel (i + 1) rest (acc ++ [line]) m
    else fixAux fixFn fuel (i + 1) rest (acc ++ [line]) m

/-- `fix_yaml_file_in_place` on the file's text: the flag is the function's
return value (`modified`); the text component is the file's content after the
call (written back only when `modified`). -/
def fixFilePy (fixFn : Str → Str) (content : Str) : Bool × Str :=
  let r := fixAux fixFn (splitNl content).length 0 (splitNl content) [] false
  (r.2, if r.2 then joinNl r.1 else content)

/-- The writes performed by `fix_yaml_file_in_place`: one full-content write
when `modified`, none otherwise. -/
def fixFilePyWrites (fixFn : Str → Str) (content : Str) : List Str :=
  if (fixFilePy fixFn content).1 then [(fixFilePy fixFn content).2] else []

/-- Whether a line opens a block-scalar description (empty value or a block
indicator after `description:`): on such a line the scan enters the
block-collection loop. -/
def isBlockKey (line : Str) : Bool :=
  if hasDescToken line then
    match matchDescLine line with
    | some pv => decide (pv.2 = [] ∨ pv.2 ∈ blockIndicators)
    | none => false
  else false

/-- What the scan makes of a single non-block line: an inline description
value is rewritten behind its kept prefix, every other line passes through
unchanged. -/
def lineFixed (fixFn : Str → Str) (line : Str) : Str :=
  if hasDescToken line then
    match matchDescLine line with
    | some pv =>
      if pv.2 = [] ∨ pv.2 ∈ blockIndicators then line
      else pv.1 ++ fixFn pv.2
    | none => line
  else line

/-- A line-count-increasing fix function (it appends two lines), used to
exhibit the consequences of the `block_start` aliasing. -/
def growFix (s : Str) : Str := s ++ ('\n' :: 'z' :: '\n' :: 'z' :: [])

/-! ## The runner: data model and `main` (`runner.py`)

YAML parsing itself is external (`ruamel`); a parsed document is modelled as
the structure the validation loop reads, and a file is given together with
its parse outcome (`Except` models `load_yaml` raising). -/

structure Column where
  name : Option Str
  description : Option Str

structure Node where
  name : Option Str
  description : Option Str
  columns : Option (List Column)

/-- A parsed schema document.  `none` models both an absent key and an
explicit null value (both make Python's `data.get(...)` return `None`). -/
structure SchemaDoc where
  models : Option (List Node)
  sources : Option (List Node)

/-- `runner.iter_nodes`: `models`, else `sources`, else `[]`. -/
def iterNodes (d : SchemaDoc) : List Node :=
  match d.models with
  | some ns => ns
  | none =>
    match d.sources with
    | some ns => ns
    | none => []

/-- `runner.iter_column_dicts`. -/
def iterColumnDicts (n : Node) : List Column := n.columns.getD []

/-- Python truthiness of an optional string (`None` and `""` are falsy). -/
def truthyStr : Option Str → Bool
  | none => false
  | some s => !s.isEmpty

/-- Python's f-string rendering of a possibly-`None` name. -/
def pyShowOptStr : Option Str → Str
  | none => ("None").toList
  | some s => s

def modelErrorMsg (path : Str) (name : Option Str) (rule : Str) : Str :=
  path ++ (": Model '").toList ++ pyShowOptStr name ++
    ("' failed rule '").toList ++ rule ++ ("'").toList

def columnErrorMsg (path : Str) (name : Option Str) (rule : Str) : Str :=
  path ++ (": Column '").toList ++ pyShowOptStr name ++
    ("' failed rule '").toList ++ rule ++ ("'").toList

/-- `f"{path}: Could not parse YAML ({exc})"` from `runner.main`. -/
def parseErrorMsg (path : Str) (detail : Str) : Str :=
  path ++ (": Could not parse YAML (").toList ++ detail ++ (")").toList

/-- Errors contributed by one node (and its columns) in validate mode. -/
def nodeErrors (checkFn : Str → Bool) (path rule : Str) (n : Node) : List Str :=
  (if truthyStr n.description && !(validateText checkFn n.description) then
     [modelErrorMsg path n.name rule]
   else []) ++
  ((iterColumnDicts n).map (fun c =>
     if truthyStr c.description && !(validateText checkFn c.description) then
       [columnErrorMsg path c.name rule]
     else [])).flatten

/-- Number of `validate_text` calls made for one node (the short-circuit
`desc and not validate_text(...)` calls it only on truthy descriptions). -/
def nodeChecks (n : Node) : Nat :=
  (if truthyStr n.description then 1 else 0) +
    ((iterColumnDicts n).map (fun c => if truthyStr c.description then 1 else 0)).sum

/-- Errors and number of entity-level checks contributed by one file in
validate mode. -/
def fileResult (checkFn : Str → Bool) (rule path : Str) :
    Except Str SchemaDoc → List Str × Nat
  | .error e => ([parseErrorMsg path e], 0)
  | .ok d =>
    (((iterNodes d).map (nodeErrors checkFn path rule)).flatten,
     ((iterNodes d).map nodeChecks).sum)

def validateFiles (checkFn : Str → Bool) (rule : Str)
    (files : List (Str × Except Str SchemaDoc)) : List Str :=
  (files.map (fun f => (fileResult checkFn rule f.1 f.2).1)).flatten

/-- The registered rules (`validators/__init__.py`). -/
inductive PyRule where
  | article
  | capital
  | period
  | symbols
  | spaces

def ruleCheckFn : PyRule → (Str → Bool)
  | .article => articleCheck
  | .capital => capitalCheck
  | .period => periodCheck
  | .symbols => symbolsCheck
  | .spaces => spacesCheck

/-- `getattr(rule, "fix", None)`: only `capital`, `period` and `spaces`
define `fix`. -/
def ruleFixFn : PyRule → Option (Str → Str)
  | .article => none
  | .capital => some capitalFix
  | .period => some periodFix
  | .symbols => none
  | .spaces => some spacesFix

/-- Every registered module defines a callable `check`. -/
def ruleHasCheck : PyRule → Bool := fun _ => true

def ruleNameStr : PyRule → Str
  | .article => ("article").toList
  | .capital => ("capital").toList
  | .period => ("period").toList
  | .symbols => ("symbols").toList
  | .spaces => ("spaces").toList

inductive FileOp where
  | readF (path : Str)
  | writeF (path : Str)

structure FileInput where
  path : Str
  raw : Str
  parsed : Except Str SchemaDoc

/-- `runner.main` after argument parsing: the early `return 2` checks, the
empty-file-list early `return 0`, then the per-file loop; the trace records
the file reads and writes performed, in order.  (`argparse` itself rejects
unknown rule names before `main`'s body runs.) -/
def mainModel (rule : PyRule) (fixMode : Bool) (files : List FileInput) : Int × List FileOp :=
  if ¬ ruleHasCheck rule then (2, [])
  else if fixMode ∧ (ruleFixFn rule).isNone then (2, [])
  else if files.isEmpty then (0, [])
  else if fixMode then
    let fixFn := (ruleFixFn rule).getD id
    (0, (files.map (fun f =>
      FileOp.readF f.path ::
        (if (fixFilePy fixFn f.raw).1 then [FileOp.writeF f.path] else []))).flatten)
  else
    let errors := validateFiles (ruleCheckFn rule) (ruleNameStr rule)
      (files.map (fun f => (f.path, f.parsed)))
    ((if errors.isEmpty then 0 else 1), files.map (fun f => FileOp.readF f.path))

/-- The parse-failure message format as the claim words it
(`<path>: Could not parse (<detail>)`), for comparison with the source's
`parseErrorMsg`. -/
def claimedParseErrorMsg (path : Str) (detail : Str) : Str :=
  path ++ (": Could not parse (").toList ++ detail ++ (")").toList

/-- What a re-indented block line strips back to: a whitespace-only line
reads back as empty, any other line as itself. -/
def wsToEmpty (l : Str) : Str := if (stripPy l).isEmpty then [] else l

/-! ## MARKER: definitions above, theorems below -/

/-! ### The `spaces` rule: the substitution scan leaves no match behind -/

theorem hasDS_cons (b : Bool) (c : Char) (rest : Str) :
    hasDoubleSpace b (c :: rest) =
      ((b && hwsChar c && hwsHead rest) || hasDoubleSpace (allowedAfter c) rest) := rfl

theorem subDS_nil (st : SubState) : subDoubleSpace st [] = [] := by cases st <;> rfl

theorem subDS_skip_cons_pos {c : Char} (rest : Str) (h : hwsChar c = true) :
    subDoubleSpace .skipRun (c :: rest) = subDoubleSpace .skipRun rest := by
  rw [subDoubleSpace, if_pos h]

theorem subDS_skip_cons_neg {c : Char} (rest : Str) (h : hwsChar c = false) :
    subDoubleSpace .skipRun (c :: rest) =
      c :: subDoubleSpace (.scanning (allowedAfter c)) rest := by
  rw [subDoubleSpace, if_neg]
  simp [h]

theorem subDS_scan_pos {b : Bool} {c : Char} {rest : Str}
    (h : (b && hwsChar c && hwsHead rest) = true) :
    subDoubleSpace (.scanning b) (c :: rest) = ' ' :: subDoubleSpace .skipRun rest := by
  rw [subDoubleSpace, if_pos h]

theorem subDS_scan_neg {b : Bool} {c : Char} {rest : Str}
    (h : (b && hwsChar c && hwsHead rest) = false) :
    subDoubleSpace (.scanning b) (c :: rest) =
      c :: subDoubleSpace (.scanning (allowedAfter c)) rest := by
  rw [subDoubleSpace, if_neg]
  simp [h]

theorem hwsHead_subSkip (s : Str) : hwsHead (subDoubleSpace .skipRun s) = false := by
  induction s with
  | nil => rfl
  | cons c rest ih =>
    cases hc : hwsChar c
    · rw [subDS_skip_cons_neg rest hc]; exact hc
    · rw [subDS_skip_cons_pos rest hc]; exact ih

theorem hwsHead_subScan (a : Bool) (s : Str) (h : hwsHead s = false) :
    hwsHead (subDoubleSpace (.scanning a) s) = false := by
  cases s with
  | nil => rfl
  | cons c rest =>
    have hc : hwsChar c = false := h
    rw [subDS_scan_neg (by rw [hc]; simp)]
    exact hc

theorem hasDoubleSpace_subDoubleSpace (s : Str) :
    ∀ st : SubState, hasDoubleSpace (subFlag st) (subDoubleSpace st s) = false := by
  induction s with
  | nil => intro st; rw [subDS_nil]; rfl
  | cons c rest ih =>
    intro st
    cases st with
    | skipRun =>
      cases hc : hwsChar c
      · rw [subDS_skip_cons_neg rest hc]
        have h2 := ih (.scanning (allowedAfter c))
        simp only [subFlag] at h2 ⊢
        rw [hasDS_cons, h2, hc]
        simp
      · rw [subDS_skip_cons_pos rest hc]; exact ih .skipRun
    | scanning b =>
      cases hm : (b && hwsChar c && hwsHead rest)
      · rw [subDS_scan_neg hm]
        have h2 := ih (.scanning (allowedAfter c))
        simp only [subFlag] at h2 ⊢
        rw [hasDS_cons, h2, Bool.or_false]
        cases hbc : (b && hwsChar c)
        · rfl
        · have hr : hwsHead rest = false := by
            cases hh : hwsHead rest
            · rfl
            · rw [hbc, hh] at hm; cases hm
          rw [hwsHead_subScan _ _ hr]
          rfl
      · rw [subDS_scan_pos hm]
        have h1 := hwsHead_subSkip rest
        have h2 := ih .skipRun
        simp only [subFlag] at h2 ⊢
        rw [hasDS_cons, h1]
        have ha : allowedAfter ' ' = true := by decide
        rw [ha, h2, Bool.and_false]
        rfl

theorem subDoubleSpace_id_of_noMatch (s : Str) :
    ∀ b : Bool, hasDoubleSpace b s = false → subDoubleSpace (.scanning b) s = s := by
  induction s with
  | nil => intro b _; rfl
  | cons c rest ih =>
    intro b h
    rw [hasDS_cons, Bool.or_eq_false_iff] at h
    rw [subDS_scan_neg h.1, ih _ h.2]

theorem spacesCheck_spacesFix (t : Str) : spacesCheck (spacesFix t) = true := by
  have h := hasDoubleSpace_subDoubleSpace t (.scanning false)
  simp only [subFlag] at h
  simp [spacesCheck, spacesFix, h]

theorem spacesFix_idem (t : Str) : spacesFix (spacesFix t) = spacesFix t := by
  have h := hasDoubleSpace_subDoubleSpace t (.scanning false)
  simp only [subFlag] at h
  exact subDoubleSpace_id_of_noMatch _ _ h

theorem spacesFix_eq_self_of_check (t : Str) (h : spacesCheck t = true) : spacesFix t = t := by
  have h' : hasDoubleSpace false t = false := by
    simpa [spacesCheck] using h
  exact subDoubleSpace_id_of_noMatch _ _ h'

/-! ### Character toolkit (ASCII case maps and whitespace) -/

theorem charToNat_inj {c d : Char} (h : c.toNat = d.toNat) : c = d :=
  Char.eq_of_val_eq (UInt32.toNat.inj h)

theorem char_eq_iff_toNat {c d : Char} : (c = d) ↔ c.toNat = d.toNat :=
  ⟨fun h => h ▸ rfl, charToNat_inj⟩

theorem toNat_charOfNat {n : Nat} (h : n < 55296) : (Char.ofNat n).toNat = n := by
  have hv : n.isValidChar := Or.inl h
  rw [Char.ofNat, dif_pos hv]
  rfl

theorem char_isUpper_iff {c : Char} : c.isUpper = true ↔ 65 ≤ c.toNat ∧ c.toNat ≤ 90 := by
  simp [Char.isUpper, UInt32.le_def, BitVec.le_def, Char.toNat, UInt32.toNat]

theorem char_isLower_iff {c : Char} : c.isLower = true ↔ 97 ≤ c.toNat ∧ c.toNat ≤ 122 := by
  simp [Char.isLower, UInt32.le_def, BitVec.le_def, Char.toNat, UInt32.toNat]

theorem char_toUpper_eq_self {c : Char} (h : ¬(97 ≤ c.toNat ∧ c.toNat ≤ 122)) :
    c.toUpper = c := by
  rw [Char.toUpper, if_neg h]

theorem toNat_toUpper_of_lower {c : Char} (h1 : 97 ≤ c.toNat) (h2 : c.toNat ≤ 122) :
    c.toUpper.toNat = c.toNat - 32 := by
  rw [Char.toUpper, if_pos ⟨h1, h2⟩]
  exact toNat_charOfNat (by omega)

theorem char_isUpper_toUpper_of_lower {c : Char} (h1 : 97 ≤ c.toNat) (h2 : c.toNat ≤ 122) :
    c.toUpper.isUpper = true := by
  rw [char_isUpper_iff, toNat_toUpper_of_lower h1 h2]
  omega

theorem pyIsSpace_iff_toNat {c : Char} :
    pyIsSpace c = true ↔
      (c.toNat = 32 ∨ c.toNat = 9 ∨ c.toNat = 10 ∨ c.toNat = 13 ∨
       c.toNat = 11 ∨ c.toNat = 12) := by
  have e1 : (' ').toNat = 32 := by decide
  have e2 : ('\t').toNat = 9 := by decide
  have e3 : ('\n').toNat = 10 := by decide
  have e4 : ('\r').toNat = 13 := by decide
  have e5 : ('\x0b').toNat = 11 := by decide
  have e6 : ('\x0c').toNat = 12 := by decide
  simp only [pyIsSpace, char_eq_iff_toNat, e1, e2, e3, e4, e5, e6, Bool.or_eq_true,
    decide_eq_true_eq]
  tauto

theorem pyIsSpace_toUpper (c : Char) : pyIsSpace c.toUpper = pyIsSpace c := by
  by_cases hl : 97 ≤ c.toNat ∧ c.toNat ≤ 122
  · have hn := toNat_toUpper_of_lower hl.1 hl.2
    have l : pyIsSpace c.toUpper = false := by
      cases hsp : pyIsSpace c.toUpper
      · rfl
      · rw [pyIsSpace_iff_toNat] at hsp; omega
    have r : pyIsSpace c = false := by
      cases hsp : pyIsSpace c
      · rfl
      · rw [pyIsSpace_iff_toNat] at hsp; omega
    rw [l, r]
  · rw [char_toUpper_eq_self hl]

/-! ### Basic `lstrip` facts -/

theorem lstrip_cons (c : Char) (t : Str) :
    lstrip (c :: t) = if pyIsSpace c then lstrip t else c :: t := by
  simp [lstrip, List.dropWhile_cons]

theorem lstrip_eq_self_of_head {c : Char} (t : Str) (h : pyIsSpace c = false) :
    lstrip (c :: t) = c :: t := by
  rw [lstrip_cons, if_neg (by simp [h])]

theorem pyIsSpace_false_of_lstrip {t : Str} {c : Char} {r : Str} (h : lstrip t = c :: r) :
    pyIsSpace c = false := by
  induction t with
  | nil => cases h
  | cons a t' ih =>
    rw [lstrip_cons] at h
    by_cases ha : pyIsSpace a
    · rw [if_pos ha] at h; exact ih h
    · rw [if_neg ha] at h
      cases h
      exact Bool.of_not_eq_true ha

/-! ### The `capital` rule -/

theorem capitalFix_of_lstrip_nil {t : Str} (h : lstrip t = []) : capitalFix t = t := by
  simp [capitalFix, h]

theorem capitalFix_of_upper {t : Str} {c : Char} {r : Str}
    (h : lstrip t = c :: r) (hu : c.isUpper = true) : capitalFix t = t := by
  simp [capitalFix, h, hu]

theorem capitalFix_of_not_upper {t : Str} {c : Char} {r : Str}
    (h : lstrip t = c :: r) (hu : c.isUpper = false) :
    capitalFix t = c.toUpper :: r := by
  simp [capitalFix, h, hu]

theorem capitalCheck_of_lstrip {t : Str} {c : Char} {r : Str}
    (h : lstrip t = c :: r) : capitalCheck t = c.isUpper := by
  simp [capitalCheck, h]

theorem capitalFix_fixpoint (t : Str) : capitalFix (capitalFix t) = capitalFix t := by
  cases h : lstrip t with
  | nil => rw [capitalFix_of_lstrip_nil h, capitalFix_of_lstrip_nil h]
  | cons c r =>
    cases hu : c.isUpper
    · have hc : pyIsSpace c = false := pyIsSpace_false_of_lstrip h
      have hcu : pyIsSpace c.toUpper = false := by rw [pyIsSpace_toUpper]; exact hc
      rw [capitalFix_of_not_upper h hu]
      have hl : lstrip (c.toUpper :: r) = c.toUpper :: r := lstrip_eq_self_of_head r hcu
      cases hu2 : (c.toUpper).isUpper
      · have heq : c.toUpper = c := by
          by_cases hlow : 97 ≤ c.toNat ∧ c.toNat ≤ 122
          · rw [char_isUpper_toUpper_of_lower hlow.1 hlow.2] at hu2; cases hu2
          · exact char_toUpper_eq_self hlow
        rw [capitalFix_of_not_upper hl hu2, heq]
        rw [heq]
      · rw [capitalFix_of_upper hl hu2]
    · rw [capitalFix_of_upper h hu, capitalFix_of_upper h hu]

theorem capitalCheck_capitalFix_of_alpha {t : Str} {c : Char} {r : Str}
    (h : lstrip t = c :: r) (ha : (c.isUpper || c.isLower) = true) :
    capitalCheck (capitalFix t) = true := by
  cases hu : c.isUpper
  · have hlow : c.isLower = true := by
      rcases Bool.or_eq_true_iff.mp ha with h' | h'
      · rw [hu] at h'; cases h'
      · exact h'
    rw [char_isLower_iff] at hlow
    have hcu : pyIsSpace c.toUpper = false := by
      rw [pyIsSpace_toUpper]; exact pyIsSpace_false_of_lstrip h
    rw [capitalFix_of_not_upper h hu,
        capitalCheck_of_lstrip (lstrip_eq_self_of_head r hcu)]
    exact char_isUpper_toUpper_of_lower hlow.1 hlow.2
  · rw [capitalFix_of_upper h hu, capitalCheck_of_lstrip h]
    exact hu

/-! ### Runs of horizontal whitespace and the regex's anchoring -/

theorem allowedAfter_of_hws {c : Char} (h : hwsChar c = true) : allowedAfter c = true := by
  have h' : c = ' ' ∨ c = '\t' := by simpa [hwsChar] using h
  rcases h' with h' | h' <;> subst h' <;> decide

theorem noMatch_of_okRuns (s : Str) : ∀ (danger : Bool) (k : Nat),
    bigRunsOnlyAtLineStartAux danger s = true → noTripleHwsAux k s = true →
    hasDoubleSpace (danger || decide (1 ≤ k)) s = false := by
  induction s with
  | nil => intro danger k _ _; rfl
  | cons c rest ih =>
    intro danger k hb hn
    rw [bigRunsOnlyAtLineStartAux, Bool.and_eq_true] at hb
    obtain ⟨hb1, hb2⟩ := hb
    have hb1' : (danger && hwsChar c && hwsHead rest) = false := by
      rcases Bool.eq_false_or_eq_true (danger && hwsChar c && hwsHead rest) with h | h
      · rw [h] at hb1; cases hb1
      · exact h
    rw [hasDS_cons, Bool.or_eq_false_iff]
    cases hc : hwsChar c with
    | false =>
      constructor
      · simp
      · rw [noTripleHwsAux, if_neg (by simp [hc])] at hn
        rw [hc] at hb2
        have h0 := ih (!false && allowedAfter c) 0 hb2 hn
        simpa using h0
    | true =>
      rw [noTripleHwsAux, if_pos (by simp [hc]), Bool.and_eq_true] at hn
      obtain ⟨hk, hn2⟩ := hn
      have hk' : k < 2 := of_decide_eq_true hk
      have hflag : allowedAfter c = true := allowedAfter_of_hws hc
      constructor
      · cases hh : hwsHead rest with
        | false => simp
        | true =>
          have hdanger : danger = false := by
            rw [hc, hh] at hb1'
            simpa using hb1'
          have hk0 : k = 0 := by
            by_contra hne
            have hk1 : k = 1 := by omega
            subst hk1
            cases rest with
            | nil => cases hh
            | cons d rest2 =>
              have hd : hwsChar d = true := hh
              rw [noTripleHwsAux, if_pos (by simp [hd])] at hn2
              simp at hn2
          subst hk0; subst hdanger
          simp
      · have h1k : (decide (1 ≤ k + 1)) = true := by simp
        have h0 := ih (!hwsChar c && allowedAfter c) (k + 1) hb2 hn2
        rw [hc, h1k, Bool.or_true] at h0
        rw [hflag]
        exact h0

/-- C6 counterexample: in the text `"   a"` the only run of two-or-more
horizontal whitespace characters sits at the very start of a line (the start
of the text), yet `spaces.check` rejects the text and `spaces.fix` changes it
(the regex `(?<!^)(?<!\n)[ \t]{2,}` matches at offset 1 inside the run). -/
theorem c6_counterexample :
    bigRunsOnlyAtLineStart (("   a").toList) = true ∧
    spacesCheck (("   a").toList) = false ∧
    spacesFix (("   a").toList) ≠ ("   a").toList := by
  refine ⟨by decide, by decide, by decide⟩

/-- C6 (amended): if every run of two or more horizontal whitespace
characters occurs at the very start of a line *and has length exactly two*,
then `spaces.check` accepts the text and `spaces.fix` returns it unchanged. -/
theorem c6_spaces_check_line_start (t : Str)
    (h1 : bigRunsOnlyAtLineStart t = true) (h2 : noTripleHws t = true) :
    spacesCheck t = true ∧ spacesFix t = t := by
  have hm : hasDoubleSpace false t = false := by
    simpa using noMatch_of_okRuns t false 0 h1 h2
  exact ⟨by simp [spacesCheck, hm], subDoubleSpace_id_of_noMatch _ _ hm⟩

/-- Witness for C6 (amended) at the concrete text `"  a\nb c"`. -/
theorem c6_witness :
    spacesCheck (("  a\nb c").toList) = true ∧
    spacesFix (("  a\nb c").toList) = ("  a\nb c").toList :=
  c6_spaces_check_line_start (("  a\nb c").toList) (by decide) (by decide)

/-- C5 (code bug): `capital.fix` is specified to preserve the original
leading whitespace, but the source returns `first.upper() + text[idx + 1:]`
without re-attaching `text[:idx]`: on `"  hello"` it returns `"Hello"`, not
`"  Hello"`.  On whitespace-free input (`"hello world"`) it behaves as
specified. -/
theorem c5_capital_fix_drops_leading_whitespace :
    capitalFix (("  hello").toList) = ("Hello").toList ∧
    capitalFix (("hello world").toList) = ("Hello world").toList ∧
    capitalFix (("  hello").toList) ≠ ("  Hello").toList := by
  refine ⟨by decide, by decide, by decide⟩

/-- C7 counterexample: `capital.check("")` returns `False` in the source
(`bool(stripped) and stripped[0].isupper()` with `stripped = ""`), not `True`
as the claim states. -/
theorem c7_counterexample : capitalCheck [] = false := by decide

/-- C7 (amended): `capital.check` itself rejects the empty string; empty or
absent descriptions are nevertheless treated as valid because
`runner.validate_text` returns `True` without ever calling `check` on them. -/
theorem c7_capital_check_empty :
    capitalCheck [] = false ∧
    validateText capitalCheck (some []) = true ∧
    validateText capitalCheck none = true := by
  refine ⟨by decide, by decide, by decide⟩

/-- C3 counterexample: for `capital` (a rule with `fix`) and the text
`"1a"` — which falls under none of the claim's documented exceptions —
`check(fix("1a"))` is `false`: `'1'.upper()` is `'1'`, which is not an upper
case letter. -/
theorem c3_counterexample : capitalCheck (capitalFix (("1a").toList)) = false := by
  decide

/-- C4 counterexample: `period.fix` is not idempotent: on the list-bearing
text `"- a.."` one application strips one period (giving `"- a."`), and a
second application strips another (giving `"- a"`). -/
theorem c4_counterexample :
    periodFix (periodFix (("- a..").toList)) ≠ periodFix (("- a..").toList) := by
  decide

/-- C10 counterexample: `"''\n\n"` is non-blank and ends in two newlines, but
`period.fix` returns it unchanged (quoted-empty-string early return), so the
output does not end in exactly one newline. -/
theorem c10_counterexample :
    (stripPy (("''\n\n").toList)).isEmpty = false ∧
    endsWithStr (("''\n\n").toList) (['\n', '\n']) = true ∧
    periodFix (("''\n\n").toList) = ("''\n\n").toList ∧
    endsWithStr (periodFix (("''\n\n").toList)) (['\n', '\n']) = true := by
  refine ⟨by decide, by decide, by decide, by decide⟩

/-! ### `rstrip` and `rstrip("\n")` toolkit -/

theorem rstrip_eq_rdropWhile (s : Str) : rstrip s = List.rdropWhile pyIsSpace s := rfl

theorem rstripNl_eq_rdropWhile (s : Str) :
    rstripNl s = List.rdropWhile (fun c => decide (c = '\n')) s := rfl

theorem rstrip_concat_pos {c : Char} (s : Str) (h : pyIsSpace c = true) :
    rstrip (s ++ [c]) = rstrip s := by
  rw [rstrip_eq_rdropWhile, rstrip_eq_rdropWhile, List.rdropWhile_concat_pos]
  exact h

theorem rstrip_concat_neg {c : Char} (s : Str) (h : pyIsSpace c = false) :
    rstrip (s ++ [c]) = s ++ [c] := by
  rw [rstrip_eq_rdropWhile, List.rdropWhile_concat_neg]
  simp [h]

theorem rstrip_idem (s : Str) : rstrip (rstrip s) = rstrip s := by
  simp [rstrip_eq_rdropWhile, List.rdropWhile_idempotent]

theorem rstrip_append_ws (s : Str) : ∀ (w : Str), (∀ c ∈ w, pyIsSpace c = true) →
    rstrip (s ++ w) = rstrip s := by
  intro w
  induction w using List.reverseRecOn with
  | nil => intro _; simp
  | append_singleton w' c ih =>
    intro hw
    rw [← List.append_assoc, rstrip_concat_pos _ (hw c (by simp))]
    exact ih (fun d hd => hw d (by simp [hd]))

theorem rstrip_ws_suffix (s : Str) :
    ∃ w, s = rstrip s ++ w ∧ ∀ c ∈ w, pyIsSpace c = true := by
  refine ⟨List.rtakeWhile pyIsSpace s, ?_, ?_⟩
  · rw [rstrip_eq_rdropWhile, List.rdropWhile, List.rtakeWhile]
    rw [← List.reverse_append, List.takeWhile_append_dropWhile]
    simp
  · intro c hc
    exact List.mem_rtakeWhile_imp hc

theorem rstrip_getLast?_not_ws (s : Str) {c : Char} (h : (rstrip s).getLast? = some c) :
    pyIsSpace c = false := by
  cases hc : pyIsSpace c
  · rfl
  · exfalso
    obtain ⟨ys, hys⟩ := List.getLast?_eq_some_iff.mp h
    have h1 : rstrip (rstrip s) = rstrip s := rstrip_idem s
    rw [hys, rstrip_concat_pos ys hc] at h1
    have h2 : (rstrip ys).length ≤ ys.length :=
      (List.rdropWhile_prefix pyIsSpace ys).length_le
    have h3 := congrArg List.length h1
    simp at h3
    omega

theorem rstrip_eq_nil_iff {s : Str} : rstrip s = [] ↔ ∀ c ∈ s, pyIsSpace c = true := by
  rw [rstrip_eq_rdropWhile, List.rdropWhile_eq_nil_iff]

theorem rstripNl_concat_pos (s : Str) : rstripNl (s ++ ['\n']) = rstripNl s := by
  rw [rstripNl_eq_rdropWhile, rstripNl_eq_rdropWhile, List.rdropWhile_concat_pos]
  simp

theorem rstripNl_concat_neg {c : Char} (s : Str) (h : c ≠ '\n') :
    rstripNl (s ++ [c]) = s ++ [c] := by
  rw [rstripNl_eq_rdropWhile, List.rdropWhile_concat_neg]
  simp [h]

theorem rstripNl_append_replicate (s : Str) (k : Nat) :
    rstripNl (s ++ List.replicate k '\n') = rstripNl s := by
  induction k with
  | zero => simp
  | succ n ih =>
    have : List.replicate (n + 1) '\n' = List.replicate n '\n' ++ ['\n'] := by
      rw [List.replicate_succ']
    rw [this, ← List.append_assoc, rstripNl_concat_pos, ih]

theorem rstripNl_idem' (s : Str) : rstripNl (rstripNl s) = rstripNl s := by
  simp [rstripNl_eq_rdropWhile, List.rdropWhile_idempotent]

theorem rstripNl_spec (s : Str) : ∃ k, s = rstripNl s ++ List.replicate k '\n' := by
  refine ⟨(List.rtakeWhile (fun c => decide (c = '\n')) s).length, ?_⟩
  have h1 : s = rstripNl s ++ List.rtakeWhile (fun c => decide (c = '\n')) s := by
    rw [rstripNl_eq_rdropWhile, List.rdropWhile, List.rtakeWhile]
    rw [← List.reverse_append, List.takeWhile_append_dropWhile]
    simp
  have h2 : List.rtakeWhile (fun c => decide (c = '\n')) s =
      List.replicate (List.rtakeWhile (fun c => decide (c = '\n')) s).length '\n' := by
    apply List.eq_replicate_of_mem
    intro b hb
    have := List.mem_rtakeWhile_imp hb
    simpa using this
  rw [← h2]
  exact h1

theorem rstripNl_getLast?_ne {s : Str} {c : Char} (h : (rstripNl s).getLast? = some c) :
    c ≠ '\n' := by
  intro he
  subst he
  obtain ⟨ys, hys⟩ := List.getLast?_eq_some_iff.mp h
  have h1 : rstripNl (rstripNl s) = rstripNl s := rstripNl_idem' s
  rw [hys, rstripNl_concat_pos ys] at h1
  have h2 : (rstripNl ys).length ≤ ys.length :=
    (List.rdropWhile_prefix (fun c => decide (c = '\n')) ys).length_le
  have h3 := congrArg List.length h1
  simp at h3
  omega


/-! ### `endswith` helpers -/

theorem endsWith_single_iff {x : Char} {s : Str} :
    endsWithStr s [x] = true ↔ s.getLast? = some x := by
  rw [endsWithStr, List.isSuffixOf_iff_suffix]
  constructor
  · rintro ⟨t, ht⟩
    rw [← ht, List.getLast?_concat]
  · intro h
    obtain ⟨ys, hys⟩ := List.getLast?_eq_some_iff.mp h
    exact ⟨ys, hys.symm⟩

theorem endsWith_two_concat_iff {a b c : Char} {s : Str} :
    endsWithStr (s ++ [c]) [a, b] = true ↔ b = c ∧ s.getLast? = some a := by
  rw [endsWithStr, List.isSuffixOf_iff_suffix]
  constructor
  · rintro ⟨t, ht⟩
    have h1 : t ++ [a] ++ [b] = s ++ [c] := by simpa using ht
    have hb : b = c := by
      have h2 := congrArg List.getLast? h1
      rw [List.getLast?_concat, List.getLast?_concat] at h2
      exact Option.some.inj h2
    have hs : t ++ [a] = s := by
      have h2 := congrArg List.dropLast h1
      rwa [List.dropLast_concat, List.dropLast_concat] at h2
    exact ⟨hb, by rw [← hs, List.getLast?_concat]⟩
  · rintro ⟨hb, ha⟩
    subst hb
    obtain ⟨ys, hys⟩ := List.getLast?_eq_some_iff.mp ha
    subst hys
    exact ⟨ys, by simp⟩

/-! ### `split('\n')`, `splitlines` and `'\n'.join` toolkit -/

theorem splitNl_nil : splitNl [] = [[]] := rfl

theorem splitNl_cons_nl (rest : Str) : splitNl ('\n' :: rest) = [] :: splitNl rest := by
  simp [splitNl]

theorem splitNl_cons_ne {c : Char} {rest l : Str} {ls : List Str}
    (h : c ≠ '\n') (hr : splitNl rest = l :: ls) :
    splitNl (c :: rest) = (c :: l) :: ls := by
  simp [splitNl, h, hr]

theorem splitNl_ne_nil (s : Str) : splitNl s ≠ [] := by
  induction s with
  | nil => simp [splitNl_nil]
  | cons c rest ih =>
    by_cases h : c = '\n'
    · subst h; simp [splitNl_cons_nl]
    · cases hr : splitNl rest with
      | nil => exact absurd hr ih
      | cons l ls => rw [splitNl_cons_ne h hr]; simp

theorem splitlinesPy_nil : splitlinesPy [] = [] := rfl

theorem splitlinesPy_cons_nl (rest : Str) :
    splitlinesPy ('\n' :: rest) = [] :: splitlinesPy rest := by
  simp [splitlinesPy]

theorem splitlinesPy_cons_ne_nil {c : Char} {rest : Str}
    (h : c ≠ '\n') (hr : splitlinesPy rest = []) :
    splitlinesPy (c :: rest) = [[c]] := by
  simp [splitlinesPy, h, hr]

theorem splitlinesPy_cons_ne {c : Char} {rest l : Str} {ls : List Str}
    (h : c ≠ '\n') (hr : splitlinesPy rest = l :: ls) :
    splitlinesPy (c :: rest) = (c :: l) :: ls := by
  simp [splitlinesPy, h, hr]

theorem splitlinesPy_eq_nil_iff {s : Str} : splitlinesPy s = [] ↔ s = [] := by
  constructor
  · intro h
    cases s with
    | nil => rfl
    | cons c rest =>
      by_cases hc : c = '\n'
      · subst hc; rw [splitlinesPy_cons_nl] at h; cases h
      · cases hr : splitlinesPy rest with
        | nil => rw [splitlinesPy_cons_ne_nil hc hr] at h; cases h
        | cons l ls => rw [splitlinesPy_cons_ne hc hr] at h; cases h
  · intro h; subst h; rfl

theorem nlFree_splitNl (s : Str) : ∀ l ∈ splitNl s, '\n' ∉ l := by
  induction s with
  | nil => intro l hl; rw [splitNl_nil] at hl; simp at hl; subst hl; simp
  | cons c rest ih =>
    by_cases h : c = '\n'
    · subst h
      rw [splitNl_cons_nl]
      intro l hl
      rcases List.mem_cons.mp hl with h' | h'
      · subst h'; simp
      · exact ih l h'
    · cases hr : splitNl rest with
      | nil => exact absurd hr (splitNl_ne_nil rest)
      | cons m ms =>
        rw [splitNl_cons_ne h hr]
        intro l hl
        rcases List.mem_cons.mp hl with h' | h'
        · subst h'
          intro hmem
          rcases List.mem_cons.mp hmem with h2 | h2
          · exact h h2.symm
          · exact ih m (by rw [hr]; simp) h2
        · exact ih l (by rw [hr]; simp [h'])

theorem nlFree_splitlinesPy (s : Str) : ∀ l ∈ splitlinesPy s, '\n' ∉ l := by
  induction s with
  | nil => intro l hl; simp [splitlinesPy_nil] at hl
  | cons c rest ih =>
    by_cases h : c = '\n'
    · subst h
      rw [splitlinesPy_cons_nl]
      intro l hl
      rcases List.mem_cons.mp hl with h' | h'
      · subst h'; simp
      · exact ih l h'
    · cases hr : splitlinesPy rest with
      | nil =>
        rw [splitlinesPy_cons_ne_nil h hr]
        intro l hl
        simp at hl
        subst hl
        simp [h]
        intro hx
        exact h hx.symm
      | cons m ms =>
        rw [splitlinesPy_cons_ne h hr]
        intro l hl
        rcases List.mem_cons.mp hl with h' | h'
        · subst h'
          intro hmem
          rcases List.mem_cons.mp hmem with h2 | h2
          · exact h h2.symm
          · exact ih m (by rw [hr]; simp) h2
        · exact ih l (by rw [hr]; simp [h'])

theorem joinNl_cons {l : Str} {ls : List Str} (h : ls ≠ []) :
    joinNl (l :: ls) = l ++ '\n' :: joinNl ls := by
  cases ls with
  | nil => exact absurd rfl h
  | cons m ms => rfl

theorem joinNl_splitNl (s : Str) : joinNl (splitNl s) = s := by
  induction s with
  | nil => rfl
  | cons c rest ih =>
    by_cases h : c = '\n'
    · subst h
      rw [splitNl_cons_nl, joinNl_cons (splitNl_ne_nil rest), ih]
      rfl
    · cases hr : splitNl rest with
      | nil => exact absurd hr (splitNl_ne_nil rest)
      | cons l ls =>
        rw [splitNl_cons_ne h hr]
        cases ls with
        | nil =>
          have : joinNl [c :: l] = c :: l := rfl
          rw [this]
          rw [hr] at ih
          have hl : joinNl [l] = l := rfl
          rw [hl] at ih
          rw [ih]
        | cons m ms =>
          rw [joinNl_cons (by simp : (m :: ms : List Str) ≠ [])]
          rw [hr] at ih
          rw [joinNl_cons (by simp : (m :: ms : List Str) ≠ [])] at ih
          rw [List.cons_append, ih]

theorem splitNl_single {l : Str} (h : '\n' ∉ l) : splitNl l = [l] := by
  induction l with
  | nil => rfl
  | cons c rest ih =>
    have hc : c ≠ '\n' := by intro he; exact h (by simp [he])
    have hr : splitNl rest = [rest] := ih (by intro hm; exact h (by simp [hm]))
    rw [splitNl_cons_ne hc hr]

theorem splitlinesPy_single {l : Str} (h : '\n' ∉ l) (hne : l ≠ []) :
    splitlinesPy l = [l] := by
  induction l with
  | nil => exact absurd rfl hne
  | cons c rest ih =>
    have hc : c ≠ '\n' := by intro he; exact h (by simp [he])
    by_cases hrnil : rest = []
    · subst hrnil
      exact splitlinesPy_cons_ne_nil hc splitlinesPy_nil
    · have hr : splitlinesPy rest = [rest] :=
        ih (by intro hm; exact h (by simp [hm])) hrnil
      rw [splitlinesPy_cons_ne hc hr]

theorem splitNl_append_nl (X : Str) : ∀ {l : Str}, '\n' ∉ l →
    splitNl (l ++ '\n' :: X) = l :: splitNl X := by
  intro l
  induction l with
  | nil => intro _; rw [List.nil_append, splitNl_cons_nl]
  | cons c rest ih =>
    intro h
    have hc : c ≠ '\n' := by intro he; exact h (by simp [he])
    have hr := ih (by intro hm; exact h (by simp [hm]))
    rw [List.cons_append, splitNl_cons_ne hc hr]

theorem splitlinesPy_append_nl (X : Str) : ∀ {l : Str}, '\n' ∉ l →
    splitlinesPy (l ++ '\n' :: X) = l :: splitlinesPy X := by
  intro l
  induction l with
  | nil => intro _; rw [List.nil_append, splitlinesPy_cons_nl]
  | cons c rest ih =>
    intro h
    have hc : c ≠ '\n' := by intro he; exact h (by simp [he])
    have hr := ih (by intro hm; exact h (by simp [hm]))
    rw [List.cons_append, splitlinesPy_cons_ne hc hr]

theorem splitNl_joinNl {ls : List Str} (hne : ls ≠ []) (hfree : ∀ l ∈ ls, '\n' ∉ l) :
    splitNl (joinNl ls) = ls := by
  induction ls with
  | nil => exact absurd rfl hne
  | cons l ls ih =>
    cases ls with
    | nil =>
      have : joinNl [l] = l := rfl
      rw [this, splitNl_single (hfree l (by simp))]
    | cons m ms =>
      rw [joinNl_cons (by simp : (m :: ms : List Str) ≠ [])]
      rw [splitNl_append_nl _ (hfree l (by simp))]
      rw [ih (by simp) (fun x hx => hfree x (by simp [hx]))]

theorem splitlinesPy_joinNl {ls : List Str} {g : Str} (hfree : ∀ l ∈ ls ++ [g], '\n' ∉ l)
    (hg : g ≠ []) : splitlinesPy (joinNl (ls ++ [g])) = ls ++ [g] := by
  induction ls with
  | nil =>
    have : joinNl [g] = g := rfl
    rw [List.nil_append, this, splitlinesPy_single (hfree g (by simp)) hg]
  | cons l ls ih =>
    have hne : (ls ++ [g] : List Str) ≠ [] := by simp
    rw [List.cons_append, joinNl_cons hne, splitlinesPy_append_nl _ (hfree l (by simp))]
    rw [ih (fun x hx => hfree x (by simp at hx ⊢; tauto))]

theorem joinNl_splitlinesPy {s : Str} (h : s.getLast? ≠ some '\n') :
    joinNl (splitlinesPy s) = s := by
  induction s with
  | nil => rfl
  | cons c rest ih =>
    by_cases hc : c = '\n'
    · subst hc
      have hrne : rest ≠ [] := by
        intro he; subst he; simp at h
      have hlast : ('\n' :: rest).getLast? = rest.getLast? := by
        cases rest with
        | nil => exact absurd rfl hrne
        | cons d r2 => simp [List.getLast?_cons_cons]
      have hr := ih (by rw [← hlast]; exact h)
      rw [splitlinesPy_cons_nl, joinNl_cons (by rw [Ne, splitlinesPy_eq_nil_iff]; exact hrne), hr]
      rfl
    · by_cases hrnil : rest = []
      · subst hrnil
        rw [splitlinesPy_cons_ne_nil hc splitlinesPy_nil]
        rfl
      · have hlast : (c :: rest).getLast? = rest.getLast? := by
          cases rest with
          | nil => exact absurd rfl hrnil
          | cons d r2 => simp [List.getLast?_cons_cons]
        have hr := ih (by rw [← hlast]; exact h)
        cases hsp : splitlinesPy rest with
        | nil => exact absurd (splitlinesPy_eq_nil_iff.mp hsp) hrnil
        | cons m ms =>
          rw [splitlinesPy_cons_ne hc hsp]
          rw [hsp] at hr
          cases ms with
          | nil =>
            have h2 : joinNl [m] = m := rfl
            rw [h2] at hr
            show (c :: m : Str) = c :: rest
            rw [hr]
          | cons p ps =>
            rw [joinNl_cons (by simp : (p :: ps : List Str) ≠ [])]
            rw [joinNl_cons (by simp : (p :: ps : List Str) ≠ [])] at hr
            rw [List.cons_append, hr]

theorem joinNl_concat_ne {ls : List Str} (g : Str) (hne : ls ≠ []) :
    joinNl (ls ++ [g]) = joinNl ls ++ '\n' :: g := by
  induction ls with
  | nil => exact absurd rfl hne
  | cons l ls ih =>
    cases ls with
    | nil => rfl
    | cons m ms =>
      rw [List.cons_append, joinNl_cons (by simp : (m :: ms : List Str) ++ [g] ≠ [])]
      rw [joinNl_cons (by simp : (m :: ms : List Str) ≠ [])]
      rw [ih (by simp)]
      simp

theorem splitlinesPy_concat_nl {s : Str} (hne : s ≠ []) :
    splitlinesPy (s ++ ['\n']) =
      splitlinesPy s ++ (if s.getLast? = some '\n' then [[]] else []) := by
  induction s with
  | nil => exact absurd rfl hne
  | cons c s' ih =>
    by_cases hs' : s' = []
    · subst hs'
      by_cases hc : c = '\n'
      · subst hc
        simp [splitlinesPy_cons_nl, splitlinesPy_nil]
      · rw [if_neg (by simp [hc])]
        have h1 : splitlinesPy ([c] ++ ['\n']) = [[c]] := by
          rw [List.singleton_append, splitlinesPy_cons_ne hc (splitlinesPy_cons_nl [])]
          rfl
        rw [h1, splitlinesPy_cons_ne_nil hc splitlinesPy_nil]
        simp
    · have hlast : (c :: s').getLast? = s'.getLast? := by
        cases s' with
        | nil => exact absurd rfl hs'
        | cons d r2 => simp [List.getLast?_cons_cons]
      rw [hlast]
      by_cases hc : c = '\n'
      · subst hc
        have hstep : ('\n' :: s') ++ ['\n'] = '\n' :: (s' ++ ['\n']) := by simp
        rw [hstep, splitlinesPy_cons_nl, ih hs', splitlinesPy_cons_nl]
        simp
      · have hstep : (c :: s') ++ ['\n'] = c :: (s' ++ ['\n']) := by simp
        cases hsp : splitlinesPy s' with
        | nil => exact absurd (splitlinesPy_eq_nil_iff.mp hsp) hs'
        | cons p ps =>
          have hsp2 : splitlinesPy (s' ++ ['\n']) =
              p :: (ps ++ (if s'.getLast? = some '\n' then [[]] else [])) := by
            rw [ih hs', hsp]
            simp
          rw [hstep, splitlinesPy_cons_ne hc hsp2, splitlinesPy_cons_ne hc hsp]
          simp

theorem containsListItems_concat_nl (s : Str) :
    containsListItems (s ++ ['\n']) = containsListItems s := by
  by_cases hne : s = []
  · subst hne
    rfl
  · rw [containsListItems, containsListItems, splitlinesPy_concat_nl hne]
    rw [List.any_append]
    by_cases hl : s.getLast? = some '\n'
    · rw [if_pos hl]
      have : ([[]] : List Str).any itemLine = false := rfl
      rw [this, Bool.or_false]
    · rw [if_neg hl]
      simp

theorem containsListItems_append_replicate (s : Str) (k : Nat) :
    containsListItems (s ++ List.replicate k '\n') = containsListItems s := by
  induction k with
  | zero => simp
  | succ n ih =>
    rw [List.replicate_succ', ← List.append_assoc, containsListItems_concat_nl, ih]

theorem containsListItems_rstripNl (s : Str) :
    containsListItems (rstripNl s) = containsListItems s := by
  obtain ⟨k, hk⟩ := rstripNl_spec s
  conv_rhs => rw [hk]
  rw [containsListItems_append_replicate]

/-! ### `lstrip`/`rstrip` interaction and `itemLine` facts -/

theorem rstrip_append_of_ne {y : Str} (x : Str) (hy : rstrip y ≠ []) :
    rstrip (x ++ y) = x ++ rstrip y := by
  rw [rstrip, List.reverse_append, List.dropWhile_append]
  have h1 : (y.reverse.dropWhile pyIsSpace).isEmpty = false := by
    rw [List.isEmpty_eq_false]
    intro he
    apply hy
    rw [rstrip, he]
    rfl
  rw [if_neg (by simp [h1])]
  rw [List.reverse_append, List.reverse_reverse]
  rfl

theorem rstrip_ne_nil_of_head {c : Char} (z : Str) (hc : pyIsSpace c = false) :
    rstrip (c :: z) ≠ [] := by
  intro he
  rw [rstrip_eq_nil_iff] at he
  rw [he c (by simp)] at hc
  cases hc

theorem lstrip_rstrip_comm (s : Str) : lstrip (rstrip s) = rstrip (lstrip s) := by
  cases hl : lstrip s with
  | nil =>
    have hws : ∀ c ∈ s, pyIsSpace c = true := by
      intro c hc
      by_contra hcc
      have : lstrip s ≠ [] := by
        rw [lstrip, Ne, List.dropWhile_eq_nil_iff]
        push_neg
        exact ⟨c, hc, hcc⟩
      exact this hl
    have h1 : rstrip s = [] := rstrip_eq_nil_iff.mpr hws
    rw [h1]
    rfl
  | cons c z =>
    have hc : pyIsSpace c = false := pyIsSpace_false_of_lstrip hl
    have hdec : s = s.takeWhile pyIsSpace ++ lstrip s := by
      rw [lstrip, List.takeWhile_append_dropWhile]
    have hrne : rstrip (lstrip s) ≠ [] := by
      rw [hl]; exact rstrip_ne_nil_of_head z hc
    have h1 : rstrip s = s.takeWhile pyIsSpace ++ rstrip (lstrip s) := by
      conv_lhs => rw [hdec]
      exact rstrip_append_of_ne _ hrne
    rw [h1, lstrip, List.dropWhile_append]
    have h2 : (List.dropWhile pyIsSpace (s.takeWhile pyIsSpace)).isEmpty = true := by
      rw [List.isEmpty_iff, List.dropWhile_eq_nil_iff]
      intro x hx
      exact List.mem_takeWhile_imp hx
    rw [if_pos (by simp [h2])]
    rw [hl]
    rcases hz : rstrip (c :: z) with _ | ⟨d, w⟩
    · exact absurd hz (rstrip_ne_nil_of_head z hc)
    · have hpre : rstrip (c :: z) <+: c :: z := by
        rw [rstrip_eq_rdropWhile]
        exact List.rdropWhile_prefix _ _
      rw [hz] at hpre
      have hd : d = c := by
        obtain ⟨tt, htt⟩ := hpre
        have h4 := congrArg List.head? htt
        simpa using h4
      subst hd
      rw [List.dropWhile_cons_of_neg (by simp [hc])]

theorem stripPy_ne_nil_of_rstrip {s : Str} (h : rstrip s ≠ []) : stripPy s ≠ [] := by
  rw [stripPy, Ne, lstrip, List.dropWhile_eq_nil_iff]
  push_neg
  obtain ⟨ys, c, hc⟩ : ∃ ys c, rstrip s = ys ++ [c] := by
    rcases List.eq_nil_or_concat (rstrip s) with h' | ⟨ys, c, h'⟩
    · exact absurd h' h
    · rw [List.concat_eq_append] at h'
      exact ⟨ys, c, h'⟩
  refine ⟨c, by rw [hc]; simp, ?_⟩
  have : (rstrip s).getLast? = some c := by rw [hc, List.getLast?_concat]
  simp [rstrip_getLast?_not_ws s this]

theorem lstrip_append_of_ne {x : Str} (y : Str) (hx : lstrip x ≠ []) :
    lstrip (x ++ y) = lstrip x ++ y := by
  rw [lstrip, List.dropWhile_append]
  rw [if_neg (by simp [lstrip] at hx ⊢; exact hx)]
  rfl

theorem itemLine_nil : itemLine [] = false := rfl

theorem isPrefixOf_pair {a b : Char} (s : Str) :
    List.isPrefixOf [a, b] s = true ↔ ∃ u, s = a :: b :: u := by
  cases s with
  | nil => simp [List.isPrefixOf]
  | cons x xs =>
    cases xs with
    | nil => simp [List.isPrefixOf]
    | cons y ys =>
      simp [List.isPrefixOf]
      constructor <;> rintro ⟨h1, h2⟩ <;> exact ⟨h1.symm, h2.symm⟩

theorem itemLine_iff {l : Str} : itemLine l = true ↔ ∃ u, lstrip l = '-' :: ' ' :: u := by
  rw [itemLine, startsWithStr, dashSpace, isPrefixOf_pair]

theorem itemLine_ne_nil {l : Str} (h : itemLine l = true) : l ≠ [] := by
  intro he; subst he; cases h

theorem itemLine_append_dot {l : Str} (h : itemLine l = false) :
    itemLine (rstrip l ++ dotStr) = false := by
  cases hi : itemLine (rstrip l ++ dotStr) with
  | false => rfl
  | true =>
    exfalso
    obtain ⟨u, hu⟩ := itemLine_iff.mp hi
    by_cases hrl : rstrip l = []
    · rw [hrl, List.nil_append, dotStr] at hu
      rw [lstrip_eq_self_of_head _ (by decide)] at hu
      cases hu
    · have hstrip : lstrip (rstrip l) ≠ [] := stripPy_ne_nil_of_rstrip hrl
      rw [dotStr, lstrip_append_of_ne _ hstrip] at hu
      rcases hsp : lstrip (rstrip l) with _ | ⟨a, rest⟩
      · exact hstrip hsp
      · rw [hsp] at hu
        cases rest with
        | nil =>
          rw [List.cons_append, List.nil_append] at hu
          have h1 : a = '-' ∧ ('.' : Char) = ' ' ∧ u = [] := by
            injection hu with e1 e2
            injection e2 with e3 e4
            exact ⟨e1, e3, e4.symm⟩
          cases h1.2.1
        | cons b w =>
          have hea : a = '-' := by injection hu
          have heb : b = ' ' := by
            have := hu
            injection this with e1 e2
            injection e2
          have hpre : lstrip (rstrip l) <+: lstrip l := by
            rw [lstrip_rstrip_comm, rstrip_eq_rdropWhile]
            exact List.rdropWhile_prefix _ _
          rw [hsp, hea, heb] at hpre
          obtain ⟨tt, htt⟩ := hpre
          have : itemLine l = true := by
            rw [itemLine_iff]
            exact ⟨w ++ tt, by rw [← htt]; simp⟩
          rw [this] at h
          cases h

theorem itemLine_drop_dot {l : Str} (hit : itemLine l = true)
    (hdot : endsWithStr (rstrip l) dotStr = true) :
    itemLine ((rstrip l).dropLast) = true := by
  obtain ⟨u, hu⟩ := itemLine_iff.mp hit
  have hdec : l = l.takeWhile pyIsSpace ++ lstrip l := by
    rw [lstrip, List.takeWhile_append_dropWhile]
  have hws : ∀ c ∈ l.takeWhile pyIsSpace, pyIsSpace c = true :=
    fun c hc => List.mem_takeWhile_imp hc
  by_cases hru : rstrip u = []
  · exfalso
    have hallws : ∀ c ∈ ' ' :: u, pyIsSpace c = true := by
      intro c hc
      rcases List.mem_cons.mp hc with h' | h'
      · subst h'; decide
      · exact rstrip_eq_nil_iff.mp hru c h'
    have h1 : rstrip (lstrip l) = ['-'] := by
      rw [hu]
      have : ('-' :: ' ' :: u : Str) = ['-'] ++ (' ' :: u) := by simp
      rw [this, rstrip_append_ws _ _ hallws]
      decide
    have h2 : rstrip l = l.takeWhile pyIsSpace ++ ['-'] := by
      conv_lhs => rw [hdec]
      rw [rstrip_append_of_ne _ (by rw [h1]; simp), h1]
    rw [dotStr, endsWith_single_iff, h2, List.getLast?_concat] at hdot
    cases hdot
  · have h1 : rstrip (lstrip l) = '-' :: ' ' :: rstrip u := by
      rw [hu]
      have : ('-' :: ' ' :: u : Str) = ['-', ' '] ++ u := by simp
      rw [this, rstrip_append_of_ne _ hru]
      simp
    have h2 : rstrip l = l.takeWhile pyIsSpace ++ ('-' :: ' ' :: rstrip u) := by
      conv_lhs => rw [hdec]
      rw [rstrip_append_of_ne _ (by rw [h1]; simp), h1]
    rw [dotStr, endsWith_single_iff, h2] at hdot
    have h3 : (rstrip u).getLast? = some '.' := by
      rw [List.getLast?_append] at hdot
      have h4 : ('-' :: ' ' :: rstrip u).getLast? = (rstrip u).getLast? := by
        cases hz : rstrip u with
        | nil => exact absurd hz hru
        | cons d w => simp [List.getLast?_cons_cons]
      rw [h4] at hdot
      cases hz : (rstrip u).getLast? with
      | none =>
        rw [hz] at hdot
        rw [List.getLast?_eq_none_iff] at hz
        exact absurd hz hru
      | some d =>
        rw [hz] at hdot
        simpa using hdot
    obtain ⟨vs, hvs⟩ := List.getLast?_eq_some_iff.mp h3
    have h5 : rstrip l = (l.takeWhile pyIsSpace ++ ('-' :: ' ' :: vs)) ++ ['.'] := by
      rw [h2, hvs]
      simp
    rw [h5, List.dropLast_concat]
    rw [itemLine_iff]
    refine ⟨vs, ?_⟩
    rw [lstrip, List.dropWhile_append_of_pos hws]
    rw [List.dropWhile_cons_of_neg (by decide)]

theorem containsList_joinNl_of_mem {ls : List Str} (hfree : ∀ x ∈ ls, '\n' ∉ x)
    {l : Str} (hmem : l ∈ ls) (hitem : itemLine l = true) :
    containsListItems (joinNl ls) = true := by
  induction ls with
  | nil => cases hmem
  | cons l0 ls' ih =>
    cases ls' with
    | nil =>
      have hl : l = l0 := by simpa using hmem
      subst hl
      have h1 : joinNl [l] = l := rfl
      rw [h1, containsListItems, splitlinesPy_single (hfree l (by simp)) (itemLine_ne_nil hitem)]
      simp [hitem]
    | cons m ms =>
      rw [joinNl_cons (by simp : (m :: ms : List Str) ≠ [])]
      rw [containsListItems, splitlinesPy_append_nl _ (hfree l0 (by simp))]
      rcases List.mem_cons.mp hmem with h' | h'
      · subst h'
        simp [hitem]
      · have := ih (fun x hx => hfree x (by simp at hx ⊢; tauto)) h'
        rw [containsListItems] at this
        simp [this]

theorem containsList_joinNl_none {ls : List Str} (hfree : ∀ x ∈ ls, '\n' ∉ x)
    (hnone : ∀ x ∈ ls, itemLine x = false) :
    containsListItems (joinNl ls) = false := by
  induction ls with
  | nil => rfl
  | cons l0 ls' ih =>
    cases ls' with
    | nil =>
      have h1 : joinNl [l0] = l0 := rfl
      rw [h1, containsListItems]
      by_cases hl0 : l0 = []
      · subst hl0; rfl
      · rw [splitlinesPy_single (hfree l0 (by simp)) hl0]
        simp [hnone l0 (by simp)]
    | cons m ms =>
      rw [joinNl_cons (by simp : (m :: ms : List Str) ≠ [])]
      rw [containsListItems, splitlinesPy_append_nl _ (hfree l0 (by simp))]
      have h2 := ih (fun x hx => hfree x (by simp at hx ⊢; tauto))
        (fun x hx => hnone x (by simp at hx ⊢; tauto))
      rw [containsListItems] at h2
      simp [h2, hnone l0 (by simp)]

theorem rstripNl_eq_self_of_getLast {s : Str} {c : Char} (h : s.getLast? = some c)
    (hc : c ≠ '\n') : rstripNl s = s := by
  rw [rstripNl_eq_rdropWhile, List.rdropWhile_eq_self_iff]
  intro hl
  rw [List.getLast?_eq_getLast _ hl] at h
  have : s.getLast hl = c := by injection h
  rw [this]
  simp [hc]

theorem getLast?_joinNl_concat {ls : List Str} {g : Str} (hg : g ≠ []) :
    (joinNl (ls ++ [g])).getLast? = g.getLast? := by
  cases hls : ls with
  | nil =>
    have : joinNl [g] = g := rfl
    rw [List.nil_append, this]
  | cons m ms =>
    rw [← hls, joinNl_concat_ne g (by rw [hls]; simp)]
    rw [List.getLast?_append]
    have h1 : ('\n' :: g).getLast? = g.getLast? := by
      cases hgg : g with
      | nil => exact absurd hgg hg
      | cons d w => simp [List.getLast?_cons_cons]
    rw [h1]
    cases hz : g.getLast? with
    | none => rw [List.getLast?_eq_none_iff] at hz; exact absurd hz hg
    | some d => rfl

/-! ### blank, quoted and main-branch characterizations of `period.fix` -/

theorem stripPy_eq_nil_iff {t : Str} : stripPy t = [] ↔ ∀ c ∈ t, pyIsSpace c = true := by
  constructor
  · intro h c hc
    by_contra hcc
    have hr : rstrip t ≠ [] := by
      intro he
      rw [rstrip_eq_nil_iff] at he
      exact hcc (he c hc)
    exact stripPy_ne_nil_of_rstrip hr h
  · intro h
    have hr : rstrip t = [] := rstrip_eq_nil_iff.mpr h
    rw [stripPy, hr]
    rfl

theorem rstrip_eq_self_of_getLast {s : Str} {c : Char} (h : s.getLast? = some c)
    (hc : pyIsSpace c = false) : rstrip s = s := by
  rw [rstrip_eq_rdropWhile, List.rdropWhile_eq_self_iff]
  intro hl
  rw [List.getLast?_eq_getLast _ hl] at h
  have h2 : s.getLast hl = c := by injection h
  rw [h2, hc]
  simp

theorem getLast?_of_suffix {l₁ l₂ : Str} (h : l₁ <:+ l₂) (hne : l₁ ≠ []) :
    l₂.getLast? = l₁.getLast? := by
  obtain ⟨pre, hpre⟩ := h
  rw [← hpre, List.getLast?_append]
  cases hz : l₁.getLast? with
  | none => rw [List.getLast?_eq_none_iff] at hz; exact absurd hz hne
  | some d => rfl

theorem getLast?_lstrip {s : Str} (h : lstrip s ≠ []) :
    s.getLast? = (lstrip s).getLast? :=
  getLast?_of_suffix (List.dropWhile_suffix pyIsSpace) h

theorem mem_splitlinesPy_chars {s : Str} {c : Char} :
    ∀ {l : Str}, l ∈ splitlinesPy s → c ∈ l → c ∈ s := by
  induction s with
  | nil => intro l hl _; simp [splitlinesPy_nil] at hl
  | cons a rest ih =>
    intro l hl hc
    by_cases ha : a = '\n'
    · subst ha
      rw [splitlinesPy_cons_nl] at hl
      rcases List.mem_cons.mp hl with h' | h'
      · subst h'; cases hc
      · exact List.mem_cons_of_mem _ (ih h' hc)
    · cases hr : splitlinesPy rest with
      | nil =>
        rw [splitlinesPy_cons_ne_nil ha hr] at hl
        simp at hl
        subst hl
        exact List.mem_cons.mpr (Or.inl (by simpa using hc))
      | cons m ms =>
        rw [splitlinesPy_cons_ne ha hr] at hl
        rcases List.mem_cons.mp hl with h' | h'
        · subst h'
          rcases List.mem_cons.mp hc with h2 | h2
          · simp [h2]
          · exact List.mem_cons_of_mem _ (ih (by rw [hr]; exact List.mem_cons_self m ms) h2)
        · exact List.mem_cons_of_mem _ (ih (by rw [hr]; exact List.mem_cons_of_mem _ h') hc)

theorem mem_stripPy_of_mem {t : Str} {c : Char} (hc : c ∈ t) (hws : pyIsSpace c = false) :
    c ∈ stripPy t := by
  have h1 : c ∈ lstrip t := by
    have hdec : t = t.takeWhile pyIsSpace ++ lstrip t := by
      rw [lstrip, List.takeWhile_append_dropWhile]
    rw [hdec] at hc
    rcases List.mem_append.mp hc with h' | h'
    · have := List.mem_takeWhile_imp h'
      rw [this] at hws
      cases hws
    · exact h'
  rw [stripPy, lstrip_rstrip_comm]
  obtain ⟨w, hw, hwall⟩ := rstrip_ws_suffix (lstrip t)
  rw [hw] at h1
  rcases List.mem_append.mp h1 with h' | h'
  · exact h'
  · rw [hwall c h'] at hws
    cases hws

theorem containsList_stripPy_facts {t : Str} (h : containsListItems t = true) :
    (stripPy t).isEmpty = false ∧ (stripPy t = sq2 || stripPy t = dq2) = false := by
  rw [containsListItems, List.any_eq_true] at h
  obtain ⟨l, hl, hitem⟩ := h
  obtain ⟨u, hu⟩ := itemLine_iff.mp hitem
  have hdm : ('-' : Char) ∈ l := by
    have : ('-' : Char) ∈ lstrip l := by rw [hu]; simp
    exact (List.dropWhile_suffix pyIsSpace).subset this
  have hdt : ('-' : Char) ∈ t := mem_splitlinesPy_chars hl hdm
  have hds : ('-' : Char) ∈ stripPy t := mem_stripPy_of_mem hdt (by decide)
  constructor
  · rw [List.isEmpty_eq_false]
    intro he
    rw [he] at hds
    cases hds
  · cases hq : (stripPy t = sq2 || stripPy t = dq2) with
    | false => rfl
    | true =>
      exfalso
      rcases Bool.or_eq_true_iff.mp hq with h' | h' <;>
        · have := of_decide_eq_true h'
          rw [this] at hds
          simp [sq2, dq2] at hds

theorem periodFix_blank {t : Str} (h : (stripPy t).isEmpty = true) : periodFix t = t := by
  rw [periodFix, if_pos h]

theorem periodCheck_blank {t : Str} (h : (stripPy t).isEmpty = true) : periodCheck t = true := by
  have hr : rstrip t = [] := by
    rcases hz : rstrip t with _ | ⟨c, w⟩
    · rfl
    · exfalso
      have : stripPy t ≠ [] := stripPy_ne_nil_of_rstrip (by rw [hz]; simp)
      rw [List.isEmpty_iff] at h
      exact this h
  rw [periodCheck]
  by_cases hc : containsListItems t = true
  · rw [if_pos hc]
  · rw [if_neg hc, hr, splitlinesPy_nil]
    rfl

theorem periodFix_quoted {t : Str} (h : (stripPy t = sq2 || stripPy t = dq2) = true) :
    periodFix t = t := by
  rw [periodFix]
  by_cases h0 : (stripPy t).isEmpty = true
  · rw [if_pos h0]
  · rw [if_neg h0, if_pos h]

theorem periodFix_main {t : Str} {L : List Str}
    (h0 : (stripPy t).isEmpty = false)
    (h1 : (stripPy t = sq2 || stripPy t = dq2) = false)
    (hsp : splitlinesPy (rstripNl t) = L) (hne : L ≠ []) :
    periodFix t =
      (let last := rstrip (L.getLastD [])
       let lines' :=
         if containsListItems t then
           (if endsWithStr last dotStr then L.dropLast ++ [last.dropLast] else L)
         else
           (if endsWithStr last dotStr then L else L.dropLast ++ [last ++ dotStr])
       if endsWithStr t nlStr then joinNl lines' ++ nlStr else joinNl lines') := by
  cases L with
  | nil => exact absurd rfl hne
  | cons l0 ls0 =>
    rw [periodFix]
    rw [if_neg (by simp [h0])]
    rw [if_neg (by simp [h1])]
    simp only [hsp]

theorem getLastD_concat' {A : List Str} {x : Str} : (A ++ [x]).getLastD [] = x := by
  rw [List.getLastD_eq_getLast?, List.getLast?_concat]
  rfl

theorem joinNl_last_append (ds : List Str) (a b : Str) :
    joinNl (ds ++ [a ++ b]) = joinNl (ds ++ [a]) ++ b := by
  cases hds : ds with
  | nil => rfl
  | cons m ms =>
    rw [← hds, joinNl_concat_ne _ (by rw [hds]; simp), joinNl_concat_ne _ (by rw [hds]; simp)]
    simp

theorem rstrip_joinNl_concat {ds : List Str} {g : Str} (w : Str)
    (hg : rstrip g ≠ []) (hw : ∀ c ∈ w, pyIsSpace c = true) :
    rstrip (joinNl (ds ++ [g]) ++ w) = joinNl (ds ++ [rstrip g]) := by
  obtain ⟨u, hu, hua⟩ := rstrip_ws_suffix g
  have h1 : joinNl (ds ++ [g]) = joinNl (ds ++ [rstrip g]) ++ u := by
    conv_lhs => rw [hu]
    exact joinNl_last_append ds (rstrip g) u
  rw [h1, List.append_assoc, rstrip_append_ws _ (u ++ w)
    (by intro c hc; rcases List.mem_append.mp hc with h' | h'
        · exact hua c h'
        · exact hw c h')]
  apply rstrip_eq_self_of_getLast (c := (rstrip g).getLast (by exact hg))
  · rw [getLast?_joinNl_concat hg, List.getLast?_eq_getLast _ hg]
  · exact rstrip_getLast?_not_ws g (List.getLast?_eq_getLast _ hg)

theorem rstripNl_ne_nil_of_strip {t : Str} (h : (stripPy t).isEmpty = false) :
    rstripNl t ≠ [] := by
  intro he
  rw [rstripNl_eq_rdropWhile, List.rdropWhile_eq_nil_iff] at he
  have hws : ∀ c ∈ t, pyIsSpace c = true := by
    intro c hc
    have := he c hc
    have hcnl : c = '\n' := by simpa using this
    subst hcnl
    rfl
  rw [List.isEmpty_eq_false] at h
  exact h (stripPy_eq_nil_iff.mpr hws)

theorem splitlinesPy_getLast_ne_nil {s : Str} (hne : s ≠ []) (h : s.getLast? ≠ some '\n')
    {pre : List Str} {g : Str} (hsp : splitlinesPy s = pre ++ [g]) : g ≠ [] := by
  intro hg
  subst hg
  have hj : joinNl (splitlinesPy s) = s := joinNl_splitlinesPy h
  rw [hsp] at hj
  by_cases hpre : pre = []
  · subst hpre
    exact hne hj.symm
  · rw [joinNl_concat_ne _ hpre] at hj
    have h6 : s.getLast? = some '\n' := by
      rw [← hj]
      have h7 : joinNl pre ++ '\n' :: ([] : Str) = joinNl pre ++ ['\n'] := rfl
      rw [h7, List.getLast?_concat]
    exact h h6

theorem rstripNl_getLast?_ne' {t : Str} : (rstripNl t).getLast? ≠ some '\n' := by
  cases hz : (rstripNl t).getLast? with
  | none => simp
  | some c =>
    intro he
    have hc : c = '\n' := by injection he
    exact rstripNl_getLast?_ne hz hc

/-- `period.check` is true for a text of the shape `joinNl (ds ++ [g]) ++ w`
(`w` trailing whitespace) whose last piece, right-stripped, ends in a period,
when the text has no list items. -/
theorem periodCheck_true_nonlist {ds : List Str} {g : Str} (w : Str)
    (hfree : ∀ x ∈ ds ++ [g], '\n' ∉ x)
    (hdot : endsWithStr (rstrip g) dotStr = true)
    (hw : ∀ c ∈ w, pyIsSpace c = true)
    (hnl : containsListItems (joinNl (ds ++ [g]) ++ w) = false) :
    periodCheck (joinNl (ds ++ [g]) ++ w) = true := by
  have hg : rstrip g ≠ [] := by
    intro he
    rw [he] at hdot
    cases hdot
  have h1 : rstrip (joinNl (ds ++ [g]) ++ w) = joinNl (ds ++ [rstrip g]) :=
    rstrip_joinNl_concat w hg hw
  have hfree' : ∀ x ∈ ds ++ [rstrip g], '\n' ∉ x := by
    intro x hx
    rcases List.mem_append.mp hx with h' | h'
    · exact hfree x (List.mem_append.mpr (Or.inl h'))
    · simp at h'
      subst h'
      intro hmem
      exact hfree g (by simp) ((List.rdropWhile_prefix pyIsSpace g).subset hmem)
  have h2 : splitlinesPy (rstrip (joinNl (ds ++ [g]) ++ w)) = ds ++ [rstrip g] := by
    rw [h1]
    exact splitlinesPy_joinNl hfree' hg
  have h3 : (stripPy (rstrip g)).isEmpty = false := by
    rw [List.isEmpty_eq_false]
    apply stripPy_ne_nil_of_rstrip
    rw [rstrip_idem]
    exact hg
  have h4 : List.filter (fun l => !(stripPy l).isEmpty) [rstrip g] = [rstrip g] := by
    simp [List.filter, h3]
  have h5 : List.map rstrip [rstrip g] = [rstrip g] := by
    simp [rstrip_idem]
  rw [periodCheck, if_neg (by simp [hnl])]
  simp only [h2, List.filter_append, List.map_append, h4, h5, List.getLast?_concat]
  exact hdot

/-- In the main branch without list items, `period.fix` produces
`joinNl (ds ++ [gg])` (plus the original trailing-newline marker) where `gg`
right-strips to a period-ended, non-list line. -/
theorem periodFix_nonlist_spec {t : Str}
    (h0 : (stripPy t).isEmpty = false)
    (h1 : (stripPy t = sq2 || stripPy t = dq2) = false)
    (hnl : containsListItems t = false) :
    ∃ ds gg,
      (∀ x ∈ ds ++ [gg], '\n' ∉ x) ∧
      gg ≠ [] ∧
      endsWithStr (rstrip gg) dotStr = true ∧
      (∀ x ∈ ds ++ [gg], itemLine x = false) ∧
      periodFix t = joinNl (ds ++ [gg]) ++ (if endsWithStr t nlStr = true then nlStr else []) := by
  have hrn : rstripNl t ≠ [] := rstripNl_ne_nil_of_strip h0
  obtain ⟨pre, g, hLpg⟩ : ∃ pre g, splitlinesPy (rstripNl t) = pre ++ [g] := by
    rcases List.eq_nil_or_concat (splitlinesPy (rstripNl t)) with h' | ⟨pre, g, h'⟩
    · exact absurd (splitlinesPy_eq_nil_iff.mp h') hrn
    · rw [List.concat_eq_append] at h'
      exact ⟨pre, g, h'⟩
  have hg_ne : g ≠ [] := splitlinesPy_getLast_ne_nil hrn rstripNl_getLast?_ne' hLpg
  have hfree : ∀ x ∈ pre ++ [g], '\n' ∉ x := by
    rw [← hLpg]
    exact nlFree_splitlinesPy _
  have hnl' : (pre ++ [g]).any itemLine = false := by
    rw [← hLpg]
    have := containsListItems_rstripNl t
    rw [containsListItems] at this
    rw [this]
    exact hnl
  have hnone : ∀ x ∈ pre ++ [g], itemLine x = false := by
    intro x hx
    cases hi : itemLine x with
    | false => rfl
    | true =>
      exfalso
      have : (pre ++ [g]).any itemLine = true := List.any_eq_true.mpr ⟨x, hx, hi⟩
      rw [hnl'] at this
      cases this
  have hmain := periodFix_main h0 h1 hLpg (by simp)
  simp only [getLastD_concat', List.dropLast_concat, hnl] at hmain
  by_cases hdot : endsWithStr (rstrip g) dotStr = true
  · simp only [hdot] at hmain
    refine ⟨pre, g, hfree, hg_ne, hdot, hnone, ?_⟩
    rw [hmain]
    by_cases hb : endsWithStr t nlStr = true <;> simp [hb]
  · simp only [hdot] at hmain
    refine ⟨pre, rstrip g ++ dotStr, ?_, by simp [dotStr], ?_, ?_, ?_⟩
    · intro x hx
      rcases List.mem_append.mp hx with h' | h'
      · exact hfree x (List.mem_append.mpr (Or.inl h'))
      · simp at h'
        subst h'
        intro hmem
        rcases List.mem_append.mp hmem with h2 | h2
        · exact hfree g (by simp) ((List.rdropWhile_prefix pyIsSpace g).subset h2)
        · simp [dotStr] at h2
    · rw [dotStr, rstrip_concat_neg _ (by decide)]
      rw [endsWith_single_iff, List.getLast?_concat]
    · intro x hx
      rcases List.mem_append.mp hx with h' | h'
      · exact hnone x (List.mem_append.mpr (Or.inl h'))
      · simp at h'
        subst h'
        exact itemLine_append_dot (hnone g (by simp))
    · rw [hmain]
      by_cases hb : endsWithStr t nlStr = true <;> simp [hb]

/-- Facts about a text of the shape produced by `period.fix` in the
non-list main branch. -/
theorem periodOut_facts {ds : List Str} {gg : Str} (b : Bool)
    (hfree : ∀ x ∈ ds ++ [gg], '\n' ∉ x)
    (hgne : gg ≠ [])
    (hdot : endsWithStr (rstrip gg) dotStr = true)
    (hnone : ∀ x ∈ ds ++ [gg], itemLine x = false) :
    containsListItems (joinNl (ds ++ [gg]) ++ (if b = true then nlStr else [])) = false ∧
    periodCheck (joinNl (ds ++ [gg]) ++ (if b = true then nlStr else [])) = true ∧
    (stripPy (joinNl (ds ++ [gg]) ++ (if b = true then nlStr else []))).isEmpty = false ∧
    ((stripPy (joinNl (ds ++ [gg]) ++ (if b = true then nlStr else [])) = sq2 ||
      stripPy (joinNl (ds ++ [gg]) ++ (if b = true then nlStr else [])) = dq2) = false) ∧
    rstripNl (joinNl (ds ++ [gg]) ++ (if b = true then nlStr else [])) = joinNl (ds ++ [gg]) ∧
    splitlinesPy (joinNl (ds ++ [gg])) = ds ++ [gg] ∧
    endsWithStr (joinNl (ds ++ [gg]) ++ (if b = true then nlStr else [])) nlStr = b := by
  have hrgg : rstrip gg ≠ [] := by
    intro he
    rw [he] at hdot
    cases hdot
  have hwsuffix : ∀ c ∈ (if b = true then nlStr else []), pyIsSpace c = true := by
    cases b <;> simp [nlStr] <;> rfl
  have hcl : containsListItems (joinNl (ds ++ [gg]) ++ (if b = true then nlStr else [])) = false := by
    have h1 : containsListItems (joinNl (ds ++ [gg])) = false :=
      containsList_joinNl_none hfree hnone
    cases b with
    | false => simpa using h1
    | true =>
      have h2 : (joinNl (ds ++ [gg]) ++ (if true = true then nlStr else [])) =
          joinNl (ds ++ [gg]) ++ ['\n'] := by simp [nlStr]
      rw [h2, containsListItems_concat_nl]
      exact h1
  have hchk : periodCheck (joinNl (ds ++ [gg]) ++ (if b = true then nlStr else [])) = true :=
    periodCheck_true_nonlist _ hfree hdot hwsuffix hcl
  have hrstrip : rstrip (joinNl (ds ++ [gg]) ++ (if b = true then nlStr else [])) =
      joinNl (ds ++ [rstrip gg]) :=
    rstrip_joinNl_concat _ hrgg hwsuffix
  have hrlast : (rstrip (joinNl (ds ++ [gg]) ++ (if b = true then nlStr else []))).getLast? =
      some '.' := by
    rw [hrstrip, getLast?_joinNl_concat hrgg]
    rw [dotStr, endsWith_single_iff] at hdot
    exact hdot
  have hrne : rstrip (joinNl (ds ++ [gg]) ++ (if b = true then nlStr else [])) ≠ [] := by
    intro he
    rw [he] at hrlast
    cases hrlast
  have hstripne : stripPy (joinNl (ds ++ [gg]) ++ (if b = true then nlStr else [])) ≠ [] :=
    stripPy_ne_nil_of_rstrip hrne
  have hstriplast : (stripPy (joinNl (ds ++ [gg]) ++ (if b = true then nlStr else []))).getLast? =
      some '.' := by
    rw [stripPy, ← getLast?_lstrip (by rw [← stripPy]; exact hstripne)]
    exact hrlast
  have hquot : ((stripPy (joinNl (ds ++ [gg]) ++ (if b = true then nlStr else [])) = sq2 ||
      stripPy (joinNl (ds ++ [gg]) ++ (if b = true then nlStr else [])) = dq2) = false) := by
    cases hz : (stripPy (joinNl (ds ++ [gg]) ++ (if b = true then nlStr else [])) = sq2 ||
        stripPy (joinNl (ds ++ [gg]) ++ (if b = true then nlStr else [])) = dq2) with
    | false => rfl
    | true =>
      exfalso
      rcases Bool.or_eq_true_iff.mp hz with h' | h' <;>
      · have he := of_decide_eq_true h'
        rw [he] at hstriplast
        simp [sq2, dq2] at hstriplast
  have hglast : ∃ d, gg.getLast? = some d ∧ d ≠ '\n' := by
    refine ⟨gg.getLast hgne, List.getLast?_eq_getLast _ hgne, ?_⟩
    intro he
    apply hfree gg (by simp)
    rw [← he]
    exact List.getLast_mem hgne
  obtain ⟨d, hd, hdne⟩ := hglast
  have hjlast : (joinNl (ds ++ [gg])).getLast? = some d := by
    rw [getLast?_joinNl_concat hgne]
    exact hd
  have hrnl : rstripNl (joinNl (ds ++ [gg]) ++ (if b = true then nlStr else [])) =
      joinNl (ds ++ [gg]) := by
    cases b with
    | false =>
      simp only [if_neg (by simp : ¬(false = true)), List.append_nil]
      exact rstripNl_eq_self_of_getLast hjlast hdne
    | true =>
      have h2 : (joinNl (ds ++ [gg]) ++ (if true = true then nlStr else [])) =
          joinNl (ds ++ [gg]) ++ ['\n'] := by simp [nlStr]
      rw [h2, rstripNl_concat_pos]
      exact rstripNl_eq_self_of_getLast hjlast hdne
  have hsp : splitlinesPy (joinNl (ds ++ [gg])) = ds ++ [gg] :=
    splitlinesPy_joinNl hfree hgne
  have hendnl : endsWithStr (joinNl (ds ++ [gg]) ++ (if b = true then nlStr else [])) nlStr = b := by
    cases b with
    | false =>
      simp only [if_neg (by simp : ¬(false = true)), List.append_nil]
      rw [nlStr]
      cases hz : endsWithStr (joinNl (ds ++ [gg])) ['\n'] with
      | false => rfl
      | true =>
        exfalso
        rw [endsWith_single_iff] at hz
        rw [hjlast] at hz
        have : d = '\n' := by injection hz
        exact hdne this
    | true =>
      have h2 : (joinNl (ds ++ [gg]) ++ (if true = true then nlStr else [])) =
          joinNl (ds ++ [gg]) ++ ['\n'] := by simp [nlStr]
      rw [h2, nlStr, endsWith_single_iff, List.getLast?_concat]
  exact ⟨hcl, hchk, by rw [List.isEmpty_eq_false]; exact hstripne, hquot, hrnl, hsp, hendnl⟩

theorem periodFix_idem_nonlist {t : Str} (hnl : containsListItems t = false) :
    periodFix (periodFix t) = periodFix t := by
  by_cases h0 : (stripPy t).isEmpty = true
  · rw [periodFix_blank h0]
    exact periodFix_blank h0
  · by_cases h1 : (stripPy t = sq2 || stripPy t = dq2) = true
    · rw [periodFix_quoted h1]
      exact periodFix_quoted h1
    · have h0' : (stripPy t).isEmpty = false := by
        cases hz : (stripPy t).isEmpty
        · rfl
        · exact absurd hz h0
      have h1' : (stripPy t = sq2 || stripPy t = dq2) = false := by
        cases hz : (stripPy t = sq2 || stripPy t = dq2)
        · rfl
        · exact absurd hz h1
      obtain ⟨ds, gg, hfree, hgne, hdot, hnone, hfixeq⟩ :=
        periodFix_nonlist_spec h0' h1' hnl
      obtain ⟨hcl, hchk, hs0, hs1, hrnl, hsp, hend⟩ :=
        periodOut_facts (endsWithStr t nlStr) hfree hgne hdot hnone
      rw [hfixeq]
      have hsp2 : splitlinesPy (rstripNl (joinNl (ds ++ [gg]) ++
          (if endsWithStr t nlStr = true then nlStr else []))) = ds ++ [gg] := by
        rw [hrnl]
        exact hsp
      have hmain := periodFix_main hs0 hs1 hsp2 (by simp)
      rw [hmain]
      simp only [getLastD_concat', List.dropLast_concat, hcl, hdot, hend]
      by_cases hb : endsWithStr t nlStr = true <;> simp [hb]

theorem periodFix_list_check {t : Str} (hl : containsListItems t = true) :
    periodCheck (periodFix t) = true := by
  have hfacts := containsList_stripPy_facts hl
  have h0 := hfacts.1
  have h1 := hfacts.2
  have hrn : rstripNl t ≠ [] := rstripNl_ne_nil_of_strip h0
  obtain ⟨pre, g, hLpg⟩ : ∃ pre g, splitlinesPy (rstripNl t) = pre ++ [g] := by
    rcases List.eq_nil_or_concat (splitlinesPy (rstripNl t)) with h' | ⟨pre, g, h'⟩
    · exact absurd (splitlinesPy_eq_nil_iff.mp h') hrn
    · rw [List.concat_eq_append] at h'
      exact ⟨pre, g, h'⟩
  have hfree : ∀ x ∈ pre ++ [g], '\n' ∉ x := by
    rw [← hLpg]
    exact nlFree_splitlinesPy _
  have hitem : ∃ x ∈ pre ++ [g], itemLine x = true := by
    have h2 : (pre ++ [g]).any itemLine = true := by
      rw [← hLpg]
      have h3 := containsListItems_rstripNl t
      rw [containsListItems] at h3
      rw [h3]
      exact hl
    exact List.any_eq_true.mp h2
  have hfin : ∀ (X : List Str), (∀ x ∈ X, '\n' ∉ x) → (∃ x ∈ X, itemLine x = true) →
      periodCheck (if endsWithStr t nlStr = true then joinNl X ++ nlStr else joinNl X) = true := by
    intro X hX hmemX
    obtain ⟨x, hx, hxi⟩ := hmemX
    have hc1 : containsListItems (joinNl X) = true := containsList_joinNl_of_mem hX hx hxi
    by_cases hb : endsWithStr t nlStr = true
    · rw [if_pos hb]
      have hc2 : containsListItems (joinNl X ++ nlStr) = true := by
        rw [nlStr, containsListItems_concat_nl]
        exact hc1
      rw [periodCheck, if_pos hc2]
    · rw [if_neg hb, periodCheck, if_pos hc1]
  have hmain := periodFix_main h0 h1 hLpg (by simp)
  simp only [getLastD_concat', List.dropLast_concat, hl] at hmain
  by_cases hdot : endsWithStr (rstrip g) dotStr = true
  · simp only [hdot, if_true] at hmain
    rw [hmain]
    apply hfin
    · intro x hx
      rcases List.mem_append.mp hx with h' | h'
      · exact hfree x (List.mem_append.mpr (Or.inl h'))
      · simp at h'
        subst h'
        intro hmem
        apply hfree g (by simp)
        exact (List.rdropWhile_prefix pyIsSpace g).subset (List.dropLast_subset _ hmem)
    · obtain ⟨x, hx, hxi⟩ := hitem
      rcases List.mem_append.mp hx with h' | h'
      · exact ⟨x, List.mem_append.mpr (Or.inl h'), hxi⟩
      · simp at h'
        subst h'
        exact ⟨(rstrip x).dropLast, by simp, itemLine_drop_dot hxi hdot⟩
  · simp only [hdot, if_false] at hmain
    rw [hmain]
    exact hfin _ hfree hitem

theorem endsWith_nl_of_nl2 {t : Str} (h : endsWithStr t ['\n', '\n'] = true) :
    endsWithStr t nlStr = true := by
  rw [endsWithStr, List.isSuffixOf_iff_suffix] at h
  obtain ⟨u, hu⟩ := h
  rw [nlStr, endsWith_single_iff, ← hu]
  have h2 : u ++ ['\n', '\n'] = (u ++ ['\n']) ++ ['\n'] := by simp
  rw [h2, List.getLast?_concat]

/-- C3 (amended): post-fix validity.  `check(fix(x))` holds for `spaces`
always; for `capital` whenever the first non-whitespace character is an ASCII
letter (on other texts `fix` is the identity and `check` stays false); for
`period` on list-bearing text (where `fix` keeps the text list-bearing and
`check` is vacuously true) and on list-free text whose stripped form is not a
quoted empty string (`''`/`""`, which `fix` returns unchanged although
`check` rejects them). -/
theorem c3_post_fix_validity :
    (∀ t : Str, spacesCheck (spacesFix t) = true) ∧
    (∀ (t : Str) (c : Char) (r : Str), lstrip t = c :: r → (c.isUpper || c.isLower) = true →
      capitalCheck (capitalFix t) = true) ∧
    (∀ t : Str, containsListItems t = false → stripPy t ≠ sq2 → stripPy t ≠ dq2 →
      periodCheck (periodFix t) = true) ∧
    (∀ t : Str, containsListItems t = true →
      periodCheck t = true ∧ periodCheck (periodFix t) = true) := by
  refine ⟨spacesCheck_spacesFix, ?_, ?_, ?_⟩
  · intro t c r h ha
    exact capitalCheck_capitalFix_of_alpha h ha
  · intro t hnl hq1 hq2
    by_cases h0 : (stripPy t).isEmpty = true
    · rw [periodFix_blank h0]
      exact periodCheck_blank h0
    · have h0' : (stripPy t).isEmpty = false := by
        cases hz : (stripPy t).isEmpty
        · rfl
        · exact absurd hz h0
      have h1' : (stripPy t = sq2 || stripPy t = dq2) = false := by
        simp [hq1, hq2]
      obtain ⟨ds, gg, hfree, hgne, hdot, hnone, hfixeq⟩ :=
        periodFix_nonlist_spec h0' h1' hnl
      obtain ⟨hcl, hchk, hs0, hs1, hrnl, hsp, hend⟩ :=
        periodOut_facts (endsWithStr t nlStr) hfree hgne hdot hnone
      rw [hfixeq]
      exact hchk
  · intro t hl
    refine ⟨by rw [periodCheck, if_pos hl], periodFix_list_check hl⟩

/-- Witness for C3 (amended) at concrete inputs. -/
theorem c3_witness :
    capitalCheck (capitalFix (("hello").toList)) = true ∧
    periodCheck (periodFix (("Revenue total").toList)) = true ∧
    periodCheck (periodFix (("- item one\n- item two").toList)) = true :=
  ⟨c3_post_fix_validity.2.1 (("hello").toList) 'h' (("ello").toList) (by decide) (by decide),
   c3_post_fix_validity.2.2.1 (("Revenue total").toList) (by decide) (by decide) (by decide),
   (c3_post_fix_validity.2.2.2 (("- item one\n- item two").toList) (by decide)).2⟩

/-- C4 (amended): `fix` is idempotent for `capital` and `spaces` on every
text, and for `period` on every text without list items; on list-bearing
text `period.fix` can strip one period per pass (see the counterexample). -/
theorem c4_fix_idempotent :
    (∀ t : Str, capitalFix (capitalFix t) = capitalFix t) ∧
    (∀ t : Str, spacesFix (spacesFix t) = spacesFix t) ∧
    (∀ t : Str, containsListItems t = false → periodFix (periodFix t) = periodFix t) :=
  ⟨capitalFix_fixpoint, spacesFix_idem, fun _ h => periodFix_idem_nonlist h⟩

/-- Witness for C4 (amended) at concrete inputs. -/
theorem c4_witness :
    capitalFix (capitalFix (("  hello").toList)) = capitalFix (("  hello").toList) ∧
    spacesFix (spacesFix (("a  b   c").toList)) = spacesFix (("a  b   c").toList) ∧
    periodFix (periodFix (("Revenue total\n\n").toList)) =
      periodFix (("Revenue total\n\n").toList) :=
  ⟨c4_fix_idempotent.1 (("  hello").toList),
   c4_fix_idempotent.2.1 (("a  b   c").toList),
   c4_fix_idempotent.2.2 (("Revenue total\n\n").toList) (by decide)⟩

/-- C10 (amended): on non-blank, non-quoted-empty, list-free text ending in
two or more newlines, `period.fix` returns a text ending in exactly one
newline; and `period.fix` can change text that `period.check` already
accepts (`"A.\n\n"` becomes `"A.\n"`). -/
theorem c10_period_fix_trailing_newlines :
    (∀ t : Str, (stripPy t).isEmpty = false → stripPy t ≠ sq2 → stripPy t ≠ dq2 →
      containsListItems t = false → endsWithStr t ['\n', '\n'] = true →
      endsWithStr (periodFix t) nlStr = true ∧
      endsWithStr (periodFix t) ['\n', '\n'] = false) ∧
    (periodCheck (("A.\n\n").toList) = true ∧
      periodFix (("A.\n\n").toList) ≠ ("A.\n\n").toList) := by
  constructor
  · intro t h0 hq1 hq2 hnl h2nl
    have h1' : (stripPy t = sq2 || stripPy t = dq2) = false := by
      simp [hq1, hq2]
    obtain ⟨ds, gg, hfree, hgne, hdot, hnone, hfixeq⟩ :=
      periodFix_nonlist_spec h0 h1' hnl
    have hbnl : endsWithStr t nlStr = true := endsWith_nl_of_nl2 h2nl
    rw [hfixeq, hbnl, if_pos rfl]
    have hglast : ∃ d, gg.getLast? = some d ∧ d ≠ '\n' := by
      refine ⟨gg.getLast hgne, List.getLast?_eq_getLast _ hgne, ?_⟩
      intro he
      apply hfree gg (by simp)
      rw [← he]
      exact List.getLast_mem hgne
    obtain ⟨d, hd, hdne⟩ := hglast
    have hjlast : (joinNl (ds ++ [gg])).getLast? = some d := by
      rw [getLast?_joinNl_concat hgne]
      exact hd
    constructor
    · rw [nlStr, endsWith_single_iff, List.getLast?_concat]
    · have h3 : (joinNl (ds ++ [gg]) ++ nlStr) = joinNl (ds ++ [gg]) ++ ['\n'] := rfl
      rw [h3]
      cases hz : endsWithStr (joinNl (ds ++ [gg]) ++ ['\n']) ['\n', '\n'] with
      | false => rfl
      | true =>
        exfalso
        obtain ⟨-, hz2⟩ := endsWith_two_concat_iff.mp hz
        rw [hjlast] at hz2
        have : d = '\n' := by injection hz2
        exact hdne this
  · exact ⟨by decide, by decide⟩

/-- Witness for C10 (amended) at the concrete input `"A.\n\n"`. -/
theorem c10_witness :
    endsWithStr (periodFix (("A.\n\n").toList)) nlStr = true ∧
    endsWithStr (periodFix (("A.\n\n").toList)) ['\n', '\n'] = false :=
  c10_period_fix_trailing_newlines.1 (("A.\n\n").toList)
    (by decide) (by decide) (by decide) (by decide) (by decide)

/-- C8 counterexample: the source formats a parse failure as
`<path>: Could not parse YAML (<detail>)`, not `<path>: Could not parse
(<detail>)` as the claim states. -/
theorem c8_counterexample :
    fileResult capitalCheck (("capital").toList) (("a.yml").toList)
        (.error (("boom").toList)) =
      ([parseErrorMsg (("a.yml").toList) (("boom").toList)], 0) ∧
    parseErrorMsg (("a.yml").toList) (("boom").toList) ≠
      claimedParseErrorMsg (("a.yml").toList) (("boom").toList) := by
  refine ⟨rfl, by decide⟩

/-- C8 (amended): a file whose content fails to parse contributes exactly one
error, formatted `<path>: Could not parse YAML (<detail>)`, and zero
entity-level checks, and validate mode continues with the remaining files:
the error list of any file sequence around it is the surrounding files'
errors with that single message in between. -/
theorem c8_parse_error_handling (checkFn : Str → Bool) (rule path detail : Str)
    (pre post : List (Str × Except Str SchemaDoc)) :
    fileResult checkFn rule path (.error detail) = ([parseErrorMsg path detail], 0) ∧
    validateFiles checkFn rule (pre ++ (path, .error detail) :: post) =
      validateFiles checkFn rule pre ++
        parseErrorMsg path detail :: validateFiles checkFn rule post := by
  refine ⟨rfl, ?_⟩
  simp [validateFiles, fileResult]

/-- Witness for C8 (amended) at a concrete file list. -/
theorem c8_witness :
    validateFiles capitalCheck (("capital").toList)
        ([] ++ ((("a.yml").toList), .error (("boom").toList)) :: []) =
      validateFiles capitalCheck (("capital").toList) [] ++
        parseErrorMsg (("a.yml").toList) (("boom").toList) ::
          validateFiles capitalCheck (("capital").toList) [] :=
  (c8_parse_error_handling capitalCheck (("capital").toList) (("a.yml").toList)
    (("boom").toList) [] []).2

/-- C9: requesting fix mode with a rule that defines no `fix` (`article` or
`symbols`) exits with code 2 before any file is read or written: the trace of
file operations is empty, whatever the file list. -/
theorem c9_fix_without_fix_exit_2 (files : List FileInput) :
    mainModel PyRule.article true files = (2, []) ∧
    mainModel PyRule.symbols true files = (2, []) := by
  constructor <;> simp [mainModel, ruleHasCheck, ruleFixFn]

/-! ### The patch engine: the description-line regex and block collection -/

theorem matchDescLine_some_eq {line : Str} {pv : Str × Str}
    (h : matchDescLine line = some pv) : pv.1 ++ pv.2 = line := by
  obtain ⟨p1, p2⟩ := pv
  simp only [matchDescLine] at h
  by_cases hp : descToken.isPrefixOf (line.dropWhile pyIsSpace) = true
  · rw [if_pos hp, Option.some.injEq, Prod.mk.injEq] at h
    obtain ⟨h1, h2⟩ := h
    obtain ⟨t, ht⟩ := List.isPrefixOf_iff_prefix.mp hp
    have hdrop : (line.dropWhile pyIsSpace).drop descToken.length = t := by
      rw [← ht]; simp
    rw [hdrop] at h1 h2
    subst h1
    subst h2
    show (line.takeWhile pyIsSpace ++ descToken ++ t.takeWhile pyIsSpace) ++
        t.dropWhile pyIsSpace = line
    rw [List.append_assoc, List.append_assoc, List.takeWhile_append_dropWhile, ht,
      List.takeWhile_append_dropWhile]
  · rw [if_neg hp] at h
    cases h

theorem collectBlock_eq_append (base : Nat) (ls : List Str) :
    (collectBlock base ls).1 ++ (collectBlock base ls).2 = ls := by
  induction ls with
  | nil => rfl
  | cons l rest ih =>
    rw [collectBlock]
    by_cases h : blockTakes base l = true
    · rw [if_pos h]
      simpa using ih
    · rw [if_neg h]
      rfl






/-! ### Transporting "no double-space match" through line surgery (for C2) -/

theorem hwsHead_append_nl (a b : Str) : hwsHead (a ++ '\n' :: b) = hwsHead a := by
  cases a with
  | nil =>
    simp only [List.nil_append, hwsHead]
    decide
  | cons c t => rfl

theorem hasDS_append_nl (b : Str) : ∀ (a : Str) (d : Bool),
    hasDoubleSpace d (a ++ '\n' :: b) = (hasDoubleSpace d a || hasDoubleSpace false b) := by
  intro a
  induction a with
  | nil =>
    intro d
    rw [List.nil_append, hasDS_cons]
    have h1 : hwsChar '\n' = false := by decide
    have h2 : allowedAfter '\n' = false := by decide
    rw [h1, h2]
    simp [hasDoubleSpace]
  | cons c t ih =>
    intro d
    rw [List.cons_append, hasDS_cons, hasDS_cons, ih, hwsHead_append_nl, Bool.or_assoc]

theorem hasDS_joinNl_any (ls : List Str) :
    hasDoubleSpace false (joinNl ls) = ls.any (fun l => hasDoubleSpace false l) := by
  induction ls with
  | nil => rfl
  | cons l ls ih =>
    cases ls with
    | nil => simp [joinNl]
    | cons m ms =>
      rw [joinNl_cons (by simp), hasDS_append_nl, ih]
      simp

theorem hasDS_prefix : ∀ (a : Str) (d : Bool) (b : Str),
    hasDoubleSpace d (a ++ b) = false → hasDoubleSpace d a = false := by
  intro a
  induction a with
  | nil => intro d b _; rfl
  | cons c t ih =>
    intro d b h
    rw [List.cons_append, hasDS_cons, Bool.or_eq_false_iff] at h
    rw [hasDS_cons, Bool.or_eq_false_iff]
    refine ⟨?_, ih _ _ h.2⟩
    cases t with
    | nil => simp [hwsHead]
    | cons x u => exact h.1

theorem spaces_g_noMatch (s : Str) (h : hasDoubleSpace false s = false) :
    hasDoubleSpace false (rstrip (joinNl ((splitNl s).map wsToEmpty))) = false := by
  have hlines : ∀ l ∈ splitNl s, hasDoubleSpace false l = false := by
    have hj : hasDoubleSpace false (joinNl (splitNl s)) = false := by
      rw [joinNl_splitNl]
      exact h
    rw [hasDS_joinNl_any] at hj
    intro l hl
    have := List.any_eq_false.mp hj l hl
    simpa using this
  have hjoin : hasDoubleSpace false (joinNl ((splitNl s).map wsToEmpty)) = false := by
    rw [hasDS_joinNl_any]
    apply List.any_eq_false.mpr
    intro l hl
    obtain ⟨l0, hl0, rfl⟩ := List.mem_map.mp hl
    rw [wsToEmpty]
    by_cases hb : (stripPy l0).isEmpty = true
    · rw [if_pos hb]
      simp [hasDoubleSpace]
    · rw [if_neg hb]
      simp [hlines l0 hl0]
  obtain ⟨t, ht⟩ : rstrip (joinNl ((splitNl s).map wsToEmpty)) <+:
      joinNl ((splitNl s).map wsToEmpty) := by
    rw [rstrip_eq_rdropWhile]
    exact List.rdropWhile_prefix _ _
  rw [← ht] at hjoin
  exact hasDS_prefix _ _ _ hjoin

/-! ### Per-rule facts feeding the second-run theorem (C2) -/

theorem toUpper_toUpper (c : Char) : c.toUpper.toUpper = c.toUpper := by
  by_cases hl : 97 ≤ c.toNat ∧ c.toNat ≤ 122
  · have hn := toNat_toUpper_of_lower hl.1 hl.2
    apply char_toUpper_eq_self
    omega
  · rw [char_toUpper_eq_self hl, char_toUpper_eq_self hl]

theorem toUpper_eq_nonletter {c x : Char} (hx : c.toUpper = x)
    (hb : x.toNat < 65 ∨ 90 < x.toNat) : c = x := by
  by_cases hl : 97 ≤ c.toNat ∧ c.toNat ≤ 122
  · have hn := toNat_toUpper_of_lower hl.1 hl.2
    rw [hx] at hn
    omega
  · rw [← hx, char_toUpper_eq_self hl]

theorem capitalFix_changed {t : Str} (h : capitalFix t ≠ t) :
    ∃ c r, lstrip t = c :: r ∧ c.isUpper = false ∧ capitalFix t = c.toUpper :: r := by
  cases hl : lstrip t with
  | nil => exact absurd (capitalFix_of_lstrip_nil hl) h
  | cons c r =>
    cases hu : c.isUpper with
    | true => exact absurd (capitalFix_of_upper hl hu) h
    | false => exact ⟨c, r, rfl, hu, capitalFix_of_not_upper hl hu⟩

theorem rstrip_cons_head {c : Char} (z : Str) (hc : pyIsSpace c = false) :
    ∃ y, rstrip (c :: z) = c :: y := by
  have hne := rstrip_ne_nil_of_head z hc
  obtain ⟨t, ht⟩ : rstrip (c :: z) <+: (c :: z) := by
    rw [rstrip_eq_rdropWhile]
    exact List.rdropWhile_prefix _ _
  cases hrs : rstrip (c :: z) with
  | nil => exact absurd hrs hne
  | cons a y =>
    rw [hrs, List.cons_append] at ht
    have h1 : a = c := (List.cons_eq_cons.mp ht).1
    exact ⟨y, by rw [h1]⟩

theorem g_head {c : Char} (r : Str) (hc : pyIsSpace c = false) :
    ∃ y, rstrip (joinNl ((splitNl (c :: r)).map wsToEmpty)) = c :: y := by
  have hcn : c ≠ '\n' := by
    intro he
    rw [he] at hc
    exact absurd hc (by decide)
  cases hr : splitNl r with
  | nil => exact absurd hr (splitNl_ne_nil r)
  | cons l0 ls0 =>
    rw [splitNl_cons_ne hcn hr]
    have hwne : stripPy (c :: l0) ≠ [] := by
      rw [Ne, stripPy_eq_nil_iff]
      intro hall
      have := hall c (by simp)
      rw [this] at hc
      cases hc
    have hw : wsToEmpty (c :: l0) = c :: l0 := by
      rw [wsToEmpty, if_neg (by simpa [List.isEmpty_iff] using hwne)]
    rw [List.map_cons, hw]
    cases hM : ls0.map wsToEmpty with
    | nil =>
      have hj : joinNl [c :: l0] = c :: l0 := rfl
      rw [hj]
      exact rstrip_cons_head l0 hc
    | cons m ms =>
      rw [joinNl_cons (by simp), List.cons_append]
      exact rstrip_cons_head _ hc

theorem capital_g_stable {b : Str} (h : capitalFix b ≠ b) :
    capitalFix (rstrip (joinNl ((splitNl (capitalFix b)).map wsToEmpty))) =
      rstrip (joinNl ((splitNl (capitalFix b)).map wsToEmpty)) := by
  obtain ⟨c, r, hl, hu, hfix⟩ := capitalFix_changed h
  have hc : pyIsSpace c = false := pyIsSpace_false_of_lstrip hl
  have hcu : pyIsSpace c.toUpper = false := by
    rw [pyIsSpace_toUpper]
    exact hc
  rw [hfix]
  obtain ⟨y, hy⟩ := g_head r hcu
  rw [hy]
  have hls : lstrip (c.toUpper :: y) = c.toUpper :: y := lstrip_eq_self_of_head y hcu
  cases hu2 : (c.toUpper).isUpper with
  | true => exact capitalFix_of_upper hls hu2
  | false => rw [capitalFix_of_not_upper hls hu2, toUpper_toUpper]

theorem capitalFix_head {c : Char} (r : Str) (hc : pyIsSpace c = false) :
    ∃ d r', capitalFix (c :: r) = d :: r' ∧ pyIsSpace d = false := by
  have hls : lstrip (c :: r) = c :: r := lstrip_eq_self_of_head r hc
  cases hu : c.isUpper with
  | true => exact ⟨c, r, capitalFix_of_upper hls hu, hc⟩
  | false =>
    refine ⟨c.toUpper, r, capitalFix_of_not_upper hls hu, ?_⟩
    rw [pyIsSpace_toUpper]
    exact hc

theorem capitalFix_indicator {c : Char} {r : Str} (hc : pyIsSpace c = false)
    (h : capitalFix (c :: r) ∈ blockIndicators) : (c :: r) ∈ blockIndicators := by
  have hls := lstrip_eq_self_of_head r hc
  cases hu : c.isUpper with
  | true =>
    rw [capitalFix_of_upper hls hu] at h
    exact h
  | false =>
    rw [capitalFix_of_not_upper hls hu] at h
    simp only [blockIndicators, List.mem_cons, List.not_mem_nil, or_false] at h ⊢
    rcases h with h | h | h | h | h | h <;>
      · obtain ⟨h1, h2⟩ := List.cons_eq_cons.mp h
        have hcx := toUpper_eq_nonletter h1 (by decide)
        subst h2
        simp [hcx]

theorem capitalFix_nl_free {v : Str} (h : '\n' ∉ v) : '\n' ∉ capitalFix v := by
  by_cases hfx : capitalFix v = v
  · rw [hfx]
    exact h
  · obtain ⟨c, r, hl, hu, hfix⟩ := capitalFix_changed hfx
    rw [hfix]
    intro hmem
    rcases List.mem_cons.mp hmem with he | hr
    · have hcw : pyIsSpace c = false := pyIsSpace_false_of_lstrip hl
      have hcw2 : pyIsSpace c.toUpper = false := by
        rw [pyIsSpace_toUpper]
        exact hcw
      rw [← he] at hcw2
      exact absurd hcw2 (by decide)
    · apply h
      have hsub : lstrip v <:+ v := List.dropWhile_suffix _
      exact hsub.subset (by rw [hl]; exact List.mem_cons_of_mem _ hr)

theorem spacesFix_cons (c : Char) (r : Str) :
    spacesFix (c :: r) = c :: subDoubleSpace (.scanning (allowedAfter c)) r := by
  rw [spacesFix]
  exact subDS_scan_neg (by simp)

theorem subDS_scan_eq_nil {b : Bool} {r : Str}
    (h : subDoubleSpace (.scanning b) r = []) : r = [] := by
  cases r with
  | nil => rfl
  | cons c t =>
    cases hm : (b && hwsChar c && hwsHead t) with
    | true => rw [subDS_scan_pos hm] at h; cases h
    | false => rw [subDS_scan_neg hm] at h; cases h

theorem subDS_scan_single {b : Bool} {r : Str} {x : Char} (hx : hwsChar x = false)
    (h : subDoubleSpace (.scanning b) r = [x]) : r = [x] := by
  cases r with
  | nil =>
    rw [subDS_nil] at h
    cases h
  | cons c t =>
    cases hm : (b && hwsChar c && hwsHead t) with
    | true =>
      rw [subDS_scan_pos hm] at h
      have hx' : x = ' ' := ((List.cons_eq_cons.mp h).1).symm
      rw [hx'] at hx
      exact absurd hx (by decide)
    | false =>
      rw [subDS_scan_neg hm] at h
      obtain ⟨h1, h2⟩ := List.cons_eq_cons.mp h
      rw [h1, subDS_scan_eq_nil h2]

theorem spacesFix_indicator {c : Char} {r : Str}
    (h : spacesFix (c :: r) ∈ blockIndicators) : (c :: r) ∈ blockIndicators := by
  rw [spacesFix_cons] at h
  simp only [blockIndicators, List.mem_cons, List.not_mem_nil, or_false] at h ⊢
  rcases h with h | h | h | h | h | h <;>
    · obtain ⟨h1, h2⟩ := List.cons_eq_cons.mp h
      subst h1
      first
        | (rw [subDS_scan_eq_nil h2]; simp)
        | (rw [subDS_scan_single (by decide) h2]; simp)

theorem subDS_mem {x : Char} : ∀ (v : Str) (st : SubState),
    x ∈ subDoubleSpace st v → x ∈ v ∨ x = ' ' := by
  intro v
  induction v with
  | nil =>
    intro st h
    rw [subDS_nil] at h
    cases h
  | cons c t ih =>
    intro st h
    cases st with
    | skipRun =>
      cases hc : hwsChar c with
      | true =>
        rw [subDS_skip_cons_pos t hc] at h
        rcases ih _ h with hm | he
        · exact Or.inl (List.mem_cons_of_mem _ hm)
        · exact Or.inr he
      | false =>
        rw [subDS_skip_cons_neg t hc] at h
        rcases List.mem_cons.mp h with he | hm
        · exact Or.inl (by rw [he]; exact List.mem_cons_self _ _)
        · rcases ih _ hm with hm2 | he2
          · exact Or.inl (List.mem_cons_of_mem _ hm2)
          · exact Or.inr he2
    | scanning b =>
      cases hm : (b && hwsChar c && hwsHead t) with
      | true =>
        rw [subDS_scan_pos hm] at h
        rcases List.mem_cons.mp h with he | hm2
        · exact Or.inr he
        · rcases ih _ hm2 with hm3 | he3
          · exact Or.inl (List.mem_cons_of_mem _ hm3)
          · exact Or.inr he3
      | false =>
        rw [subDS_scan_neg hm] at h
        rcases List.mem_cons.mp h with he | hm2
        · exact Or.inl (by rw [he]; exact List.mem_cons_self _ _)
        · rcases ih _ hm2 with hm3 | he3
          · exact Or.inl (List.mem_cons_of_mem _ hm3)
          · exact Or.inr he3

theorem spacesFix_nl_free {v : Str} (h : '\n' ∉ v) : '\n' ∉ spacesFix v := by
  intro hm
  rcases subDS_mem _ _ hm with hmv | he
  · exact h hmv
  · exact absurd he (by decide)

theorem spacesFix_g_stable (b : Str) :
    spacesFix (rstrip (joinNl ((splitNl (spacesFix b)).map wsToEmpty))) =
      rstrip (joinNl ((splitNl (spacesFix b)).map wsToEmpty)) := by
  apply subDoubleSpace_id_of_noMatch
  apply spaces_g_noMatch
  have h := hasDoubleSpace_subDoubleSpace b (.scanning false)
  simpa [subFlag] using h

/-! ### The description-line regex under value replacement (C2) -/

theorem takeWhile_all_append {p : Char → Bool} : ∀ (a b : Str), (∀ c ∈ a, p c = true) →
    (a ++ b).takeWhile p = a ++ b.takeWhile p := by
  intro a
  induction a with
  | nil => intro b _; rfl
  | cons x t ih =>
    intro b h
    rw [List.cons_append, List.takeWhile_cons_of_pos (h x (by simp)),
      ih b (fun c hc => h c (by simp [hc])), List.cons_append]

theorem dropWhile_all_append {p : Char → Bool} : ∀ (a b : Str), (∀ c ∈ a, p c = true) →
    (a ++ b).dropWhile p = b.dropWhile p := by
  intro a
  induction a with
  | nil => intro b _; rfl
  | cons x t ih =>
    intro b h
    rw [List.cons_append, List.dropWhile_cons_of_pos (h x (by simp)),
      ih b (fun c hc => h c (by simp [hc]))]

theorem matchDescLine_shape {line : Str} {pv : Str × Str} (h : matchDescLine line = some pv) :
    ∃ ws tw, pv.1 = ws ++ descToken ++ tw ∧
      (∀ c ∈ ws, pyIsSpace c = true) ∧ (∀ c ∈ tw, pyIsSpace c = true) ∧
      (pv.2 = [] ∨ ∃ c r, pv.2 = c :: r ∧ pyIsSpace c = false) := by
  obtain ⟨p1, p2⟩ := pv
  simp only [matchDescLine] at h
  by_cases hp : descToken.isPrefixOf (line.dropWhile pyIsSpace) = true
  · rw [if_pos hp, Option.some.injEq, Prod.mk.injEq] at h
    obtain ⟨h1, h2⟩ := h
    refine ⟨line.takeWhile pyIsSpace,
      ((line.dropWhile pyIsSpace).drop descToken.length).takeWhile pyIsSpace,
      h1.symm, ?_, ?_, ?_⟩
    · intro c hc
      exact List.mem_takeWhile_imp hc
    · intro c hc
      exact List.mem_takeWhile_imp hc
    · cases hv : p2 with
      | nil => exact Or.inl rfl
      | cons c r =>
        refine Or.inr ⟨c, r, rfl, ?_⟩
        have hls : lstrip ((line.dropWhile pyIsSpace).drop descToken.length) = c :: r :=
          h2.trans hv
        exact pyIsSpace_false_of_lstrip hls
  · rw [if_neg hp] at h
    cases h

theorem matchDescLine_self_append {line : Str} {pv : Str × Str}
    (h : matchDescLine line = some pv) {c : Char} {r : Str}
    (hc : pyIsSpace c = false) :
    matchDescLine (pv.1 ++ (c :: r)) = some (pv.1, c :: r) := by
  obtain ⟨ws, tw, hp1, hws, htw, _⟩ := matchDescLine_shape h
  rw [hp1]
  simp only [matchDescLine]
  have e0 : (ws ++ descToken ++ tw) ++ c :: r = ws ++ (descToken ++ (tw ++ c :: r)) := by
    simp
  rw [e0]
  have e1 : (ws ++ (descToken ++ (tw ++ c :: r))).takeWhile pyIsSpace = ws := by
    rw [takeWhile_all_append _ _ hws]
    have ht : (descToken ++ (tw ++ c :: r)).takeWhile pyIsSpace = [] := by
      rw [show descToken = 'd' :: (("escription:").toList) from rfl, List.cons_append,
        List.takeWhile_cons_of_neg (by decide)]
    rw [ht, List.append_nil]
  have e2 : (ws ++ (descToken ++ (tw ++ c :: r))).dropWhile pyIsSpace =
      descToken ++ (tw ++ c :: r) := by
    rw [dropWhile_all_append _ _ hws]
    exact lstrip_eq_self_of_head _ (by decide)
  rw [e1, e2]
  have e3 : descToken.isPrefixOf (descToken ++ (tw ++ c :: r)) = true := by
    rw [List.isPrefixOf_iff_prefix]
    exact ⟨_, rfl⟩
  rw [if_pos e3]
  have e4 : (descToken ++ (tw ++ c :: r)).drop descToken.length = tw ++ c :: r := by
    simp
  rw [e4]
  have e5 : (tw ++ c :: r).takeWhile pyIsSpace = tw := by
    rw [takeWhile_all_append _ _ htw, List.takeWhile_cons_of_neg (by simp [hc]),
      List.append_nil]
  have e6 : (tw ++ c :: r).dropWhile pyIsSpace = c :: r := by
    rw [dropWhile_all_append _ _ htw, List.dropWhile_cons_of_neg (by simp [hc])]
  rw [e5, e6]

theorem strContains_of_isPrefixOf {p s : Str} (h : p.isPrefixOf s = true) :
    strContains p s = true := by
  cases s with
  | nil => exact h
  | cons c t =>
    rw [strContains, h]
    rfl

theorem strContains_append_left (p : Str) : ∀ (a s : Str), strContains p s = true →
    strContains p (a ++ s) = true := by
  intro a
  induction a with
  | nil => intro s h; exact h
  | cons x t ih =>
    intro s h
    rw [List.cons_append, strContains, ih s h]
    simp

theorem hasDescToken_pfx_append {line : Str} {pv : Str × Str} (x : Str)
    (h : matchDescLine line = some pv) : hasDescToken (pv.1 ++ x) = true := by
  obtain ⟨ws, tw, hp1, _, _, _⟩ := matchDescLine_shape h
  rw [hasDescToken, hp1]
  have e0 : (ws ++ descToken ++ tw) ++ x = ws ++ (descToken ++ (tw ++ x)) := by simp
  rw [e0]
  apply strContains_append_left
  apply strContains_of_isPrefixOf
  rw [List.isPrefixOf_iff_prefix]
  exact ⟨_, rfl⟩

/-! ### The block-collection loop under value replacement (C2) -/

theorem blockTakes_pfx_congr {p : Str} (base : Nat) (x y : Str)
    (hne : lstrip p ≠ []) (hcol : (':' : Char) ∈ p) :
    blockTakes base (p ++ x) = blockTakes base (p ++ y) := by
  obtain ⟨a, p', rfl⟩ : ∃ a p', p = a :: p' := by
    cases p with
    | nil => exact absurd rfl hne
    | cons a p' => exact ⟨a, p', rfl⟩
  have hnw : ∃ c ∈ (a :: p' : Str), pyIsSpace c = false := by
    by_contra hall
    push_neg at hall
    apply hne
    rw [lstrip, List.dropWhile_eq_nil_iff]
    intro c hc
    have hb := hall c hc
    cases hbc : pyIsSpace c with
    | true => rfl
    | false => exact absurd hbc hb
  have key : ∀ z : Str, blockTakes base ((a :: p') ++ z) =
      (if pyIsSpace a = true then (if indentOf (a :: p') ≤ base then false else true)
       else false) := by
    intro z
    rw [blockTakes]
    have h1 : stripPy ((a :: p') ++ z) ≠ [] := by
      obtain ⟨c, hcm, hcw⟩ := hnw
      intro hsp
      rw [stripPy_eq_nil_iff] at hsp
      have hcc := hsp c (List.mem_append_left _ hcm)
      rw [hcc] at hcw
      cases hcw
    rw [if_neg (by simpa [List.isEmpty_iff] using h1)]
    have h2 : ((a :: p') ++ z).headD ' ' = a := rfl
    rw [h2]
    have hl : lstrip ((a :: p') ++ z) = lstrip (a :: p') ++ z := lstrip_append_of_ne z hne
    have hind : indentOf ((a :: p') ++ z) = indentOf (a :: p') := by
      rw [indentOf, indentOf, hl]
      have hlen : (lstrip (a :: p')).length ≤ (a :: p').length := by
        rw [lstrip]
        exact (List.dropWhile_suffix _).length_le
      simp only [List.length_append]
      omega
    have hlne : lstrip ((a :: p') ++ z) ≠ [] := by
      rw [hl]
      simp [hne]
    have hcol2 : ((a :: p') ++ z).contains ':' = true := by
      have hm : (':' : Char) ∈ (a :: p') ++ z := List.mem_append_left _ hcol
      simpa using hm
    cases hpa : pyIsSpace a with
    | false => simp
    | true =>
      simp only [Bool.not_true]
      rw [if_neg (by simp)]
      rw [hind]
      by_cases hle : indentOf (a :: p') ≤ base
      · rw [if_pos ⟨hle, hlne⟩, if_pos ⟨hcol2, hle⟩]
        simp [hle]
      · rw [if_neg (by intro hcon; exact hle hcon.1)]
        simp [hle]
  rw [key x, key y]

theorem collectBlock_cons_neg {base : Nat} {l : Str} (t : List Str)
    (h : blockTakes base l = false) : collectBlock base (l :: t) = ([], l :: t) := by
  rw [collectBlock, if_neg (by simp [h])]

theorem collectBlock_all_takes (base : Nat) : ∀ (ls : List Str),
    ∀ l ∈ (collectBlock base ls).1, blockTakes base l = true := by
  intro ls
  induction ls with
  | nil => intro l hl; cases hl
  | cons a t ih =>
    intro l hl
    rw [collectBlock] at hl
    by_cases h : blockTakes base a = true
    · rw [if_pos h] at hl
      rcases List.mem_cons.mp hl with he | hm
      · rw [he]; exact h
      · exact ih l hm
    · rw [if_neg h] at hl
      cases hl
  
theorem collectBlock_snd_break (base : Nat) : ∀ (ls : List Str),
    (collectBlock base ls).2 = [] ∨
      ∃ l t, (collectBlock base ls).2 = l :: t ∧ blockTakes base l = false := by
  intro ls
  induction ls with
  | nil => exact Or.inl rfl
  | cons a t ih =>
    rw [collectBlock]
    by_cases h : blockTakes base a = true
    · rw [if_pos h]
      exact ih
    · rw [if_neg h]
      refine Or.inr ⟨a, t, rfl, ?_⟩
      cases hb : blockTakes base a with
      | false => rfl
      | true => exact absurd hb h

theorem collectBlock_append_takes (base : Nat) {A : List Str} (B : List Str)
    (hA : ∀ l ∈ A, blockTakes base l = true) :
    collectBlock base (A ++ B) = (A ++ (collectBlock base B).1, (collectBlock base B).2) := by
  induction A with
  | nil => simp
  | cons a t ih =>
    rw [List.cons_append, collectBlock, if_pos (hA a (by simp)),
      ih (fun l hl => hA l (by simp [hl]))]
    simp

/-! ### Re-indented block lines on a second pass (C2) -/

theorem blockTakes_reindent (base : Nat) (fl : Str) :
    blockTakes base (if fl ≠ [] then List.replicate (base + 2) ' ' ++ fl else []) = true := by
  by_cases hfl : fl = []
  · rw [if_neg (by simp [hfl])]
    rfl
  · rw [if_pos hfl, blockTakes]
    by_cases hsp : (stripPy (List.replicate (base + 2) ' ' ++ fl)).isEmpty = true
    · rw [if_pos hsp]
    · rw [if_neg hsp]
      have hh : (List.replicate (base + 2) ' ' ++ fl).headD ' ' = ' ' := by
        rw [show base + 2 = (base + 1) + 1 from rfl, List.replicate_succ, List.cons_append]
        rfl
      rw [hh]
      have hps : pyIsSpace ' ' = true := by decide
      rw [hps]
      simp only [Bool.not_true]
      rw [if_neg (by simp)]
      have hall : ∀ c ∈ List.replicate (base + 2) (' ' : Char), pyIsSpace c = true := by
        intro c hc
        rw [List.eq_of_mem_replicate hc]
        decide
      have hind : base + 2 ≤ indentOf (List.replicate (base + 2) ' ' ++ fl) := by
        rw [indentOf]
        have hl : lstrip (List.replicate (base + 2) ' ' ++ fl) = lstrip fl := by
          rw [lstrip, dropWhile_all_append _ _ hall]
          rfl
        rw [hl]
        have h2 : (lstrip fl).length ≤ fl.length := (List.dropWhile_suffix _).length_le
        simp only [List.length_append, List.length_replicate]
        omega
      rw [if_neg (by intro hcon; have hc1 := hcon.1; omega)]

theorem strippedOf_reindent (base : Nat) (fl : Str) :
    strippedOfLine (base + 2) (if fl ≠ [] then List.replicate (base + 2) ' ' ++ fl else []) =
      wsToEmpty fl := by
  by_cases hfl : fl = []
  · subst hfl
    rw [if_neg (by simp)]
    rfl
  · rw [if_pos hfl, strippedOfLine, wsToEmpty]
    have hall : ∀ c ∈ List.replicate (base + 2) (' ' : Char), pyIsSpace c = true := by
      intro c hc
      rw [List.eq_of_mem_replicate hc]
      decide
    have hstrip : ∀ s : Str, stripPy s = rstrip (lstrip s) := fun s => lstrip_rstrip_comm s
    have hl : lstrip (List.replicate (base + 2) ' ' ++ fl) = lstrip fl := by
      rw [lstrip, dropWhile_all_append _ _ hall]
      rfl
    have hsp : stripPy (List.replicate (base + 2) ' ' ++ fl) = stripPy fl := by
      rw [hstrip, hstrip, hl]
    by_cases hb : (stripPy fl).isEmpty = true
    · rw [if_pos hb, if_neg (by simp [hsp, hb])]
    · rw [if_neg hb, if_pos (by simp [hsp, hb])]
      have hlen : base + 2 < (List.replicate (base + 2) ' ' ++ fl).length := by
        simp only [List.length_append, List.length_replicate]
        have hfl0 : fl.length ≠ 0 := by simpa [List.length_eq_zero] using hfl
        omega
      rw [if_pos hlen]
      exact List.drop_left' (by simp)



theorem matchDescLine_pfx_facts {line : Str} {pv : Str × Str}
    (h : matchDescLine line = some pv) :
    lstrip pv.1 ≠ [] ∧ (':' : Char) ∈ pv.1 := by
  obtain ⟨ws, tw, hp1, hws, htw, _⟩ := matchDescLine_shape h
  constructor
  · rw [hp1]
    have e0 : ws ++ descToken ++ tw = ws ++ (descToken ++ tw) := by simp
    rw [e0, lstrip, dropWhile_all_append _ _ hws,
      show descToken = 'd' :: (("escription:").toList) from rfl, List.cons_append,
      List.dropWhile_cons_of_neg (by decide)]
    simp
  · rw [hp1]
    have hmem : (':' : Char) ∈ descToken := by decide
    exact List.mem_append_left _ (List.mem_append_right _ hmem)







/-! ### The patch engine, faithfully: step equations and the no-change run (C1) -/

theorem fixAux_step_keep (f : Str → Str) {line : Str} (h : hasDescToken line = false)
    (fuel i : Nat) (rest : List Str) (acc : List Str) (m : Bool) :
    fixAux f (fuel + 1) i (line :: rest) acc m =
      fixAux f fuel (i + 1) rest (acc ++ [line]) m := by
  simp [fixAux, h]

theorem fixAux_step_none (f : Str → Str) {line : Str} (hdt : hasDescToken line = true)
    (hm : matchDescLine line = none)
    (fuel i : Nat) (rest : List Str) (acc : List Str) (m : Bool) :
    fixAux f (fuel + 1) i (line :: rest) acc m =
      fixAux f fuel (i + 1) rest (acc ++ [line]) m := by
  simp [fixAux, hdt, hm]

theorem fixAux_step_inline_eq (f : Str → Str) {line : Str} {pv : Str × Str}
    (hdt : hasDescToken line = true) (hm : matchDescLine line = some pv)
    (hind : ¬(pv.2 = [] ∨ pv.2 ∈ blockIndicators)) (hfv : f pv.2 = pv.2)
    (fuel i : Nat) (rest : List Str) (acc : List Str) (m : Bool) :
    fixAux f (fuel + 1) i (line :: rest) acc m =
      fixAux f fuel (i + 1) rest (acc ++ [line]) m := by
  simp [fixAux, hdt, hm, hind, hfv]

theorem fixAux_step_inline_ne (f : Str → Str) {line : Str} {pv : Str × Str}
    (hdt : hasDescToken line = true) (hm : matchDescLine line = some pv)
    (hind : ¬(pv.2 = [] ∨ pv.2 ∈ blockIndicators)) (hfv : f pv.2 ≠ pv.2)
    (fuel i : Nat) (rest : List Str) (acc : List Str) (m : Bool) :
    fixAux f (fuel + 1) i (line :: rest) acc m =
      fixAux f fuel (i + 1) rest (acc ++ [pv.1 ++ f pv.2]) true := by
  simp [fixAux, hdt, hm, hind, hfv]

theorem fixAux_step_block_skip (f : Str → Str) {line : Str} {pv : Str × Str}
    (hdt : hasDescToken line = true) (hm : matchDescLine line = some pv)
    (hind : pv.2 = [] ∨ pv.2 ∈ blockIndicators)
    (fuel i : Nat) (rest : List Str) (acc : List Str) (m : Bool)
    (h0 : (((acc ++ line :: (collectBlock (indentOf line) rest).1).drop (i + 1)).map
      (strippedOfLine (indentOf line + 2))).isEmpty = true) :
    fixAux f (fuel + 1) i (line :: rest) acc m =
      fixAux f fuel (i + 1 + (collectBlock (indentOf line) rest).1.length)
        (collectBlock (indentOf line) rest).2
        (acc ++ line :: (collectBlock (indentOf line) rest).1) m := by
  simp only [fixAux, hdt, eq_self_iff_true, if_true, hm]
  rw [if_pos hind, if_pos h0]

theorem fixAux_step_block_eq (f : Str → Str) {line : Str} {pv : Str × Str}
    (hdt : hasDescToken line = true) (hm : matchDescLine line = some pv)
    (hind : pv.2 = [] ∨ pv.2 ∈ blockIndicators)
    (fuel i : Nat) (rest : List Str) (acc : List Str) (m : Bool)
    (h0 : (((acc ++ line :: (collectBlock (indentOf line) rest).1).drop (i + 1)).map
      (strippedOfLine (indentOf line + 2))).isEmpty = false)
    (heq : f (rstrip (joinNl (((acc ++ line :: (collectBlock (indentOf line) rest).1).drop
        (i + 1)).map (strippedOfLine (indentOf line + 2))))) =
      rstrip (joinNl (((acc ++ line :: (collectBlock (indentOf line) rest).1).drop
        (i + 1)).map (strippedOfLine (indentOf line + 2))))) :
    fixAux f (fuel + 1) i (line :: rest) acc m =
      fixAux f fuel (i + 1 + (collectBlock (indentOf line) rest).1.length)
        (collectBlock (indentOf line) rest).2
        (acc ++ line :: (collectBlock (indentOf line) rest).1) m := by
  simp only [fixAux, hdt, eq_self_iff_true, if_true, hm]
  rw [if_pos hind, if_neg (by rw [h0]; exact Bool.false_ne_true), if_neg (fun hcon => hcon heq)]

theorem fixAux_step_block_ne (f : Str → Str) {line : Str} {pv : Str × Str}
    (hdt : hasDescToken line = true) (hm : matchDescLine line = some pv)
    (hind : pv.2 = [] ∨ pv.2 ∈ blockIndicators)
    (fuel i : Nat) (rest : List Str) (acc : List Str) (m : Bool)
    (h0 : (((acc ++ line :: (collectBlock (indentOf line) rest).1).drop (i + 1)).map
      (strippedOfLine (indentOf line + 2))).isEmpty = false)
    (hne : f (rstrip (joinNl (((acc ++ line :: (collectBlock (indentOf line) rest).1).drop
        (i + 1)).map (strippedOfLine (indentOf line + 2))))) ≠
      rstrip (joinNl (((acc ++ line :: (collectBlock (indentOf line) rest).1).drop
        (i + 1)).map (strippedOfLine (indentOf line + 2))))) :
    fixAux f (fuel + 1) i (line :: rest) acc m =
      fixAux f fuel (i + 1 + (collectBlock (indentOf line) rest).1.length)
        (collectBlock (indentOf line) rest).2
        ((acc ++ line :: (collectBlock (indentOf line) rest).1).take (i + 1) ++
          (splitNl (f (rstrip (joinNl (((acc ++ line ::
              (collectBlock (indentOf line) rest).1).drop (i + 1)).map
            (strippedOfLine (indentOf line + 2))))))).map
            (fun fl => if fl ≠ [] then List.replicate (indentOf line + 2) ' ' ++ fl else []))
        true := by
  simp only [fixAux, hdt, eq_self_iff_true, if_true, hm]
  rw [if_pos hind, if_neg (by rw [h0]; exact Bool.false_ne_true), if_pos hne]

theorem fixAux_true (f : Str → Str) : ∀ (fuel i : Nat) (ls acc : List Str),
    (fixAux f fuel i ls acc true).2 = true := by
  intro fuel
  induction fuel with
  | zero => intro i ls acc; rfl
  | succ fuel ih =>
    intro i ls acc
    cases ls with
    | nil => rfl
    | cons line rest =>
      by_cases hdt : hasDescToken line = true
      · cases hm : matchDescLine line with
        | none => rw [fixAux_step_none f hdt hm]; exact ih _ _ _
        | some pv =>
          by_cases hind : (pv.2 = [] ∨ pv.2 ∈ blockIndicators)
          · cases h0 : (((acc ++ line :: (collectBlock (indentOf line) rest).1).drop
                (i + 1)).map (strippedOfLine (indentOf line + 2))).isEmpty with
            | true =>
              rw [fixAux_step_block_skip f hdt hm hind fuel i rest acc true h0]
              exact ih _ _ _
            | false =>
              by_cases heq : f (rstrip (joinNl (((acc ++ line ::
                  (collectBlock (indentOf line) rest).1).drop (i + 1)).map
                  (strippedOfLine (indentOf line + 2))))) =
                  rstrip (joinNl (((acc ++ line ::
                    (collectBlock (indentOf line) rest).1).drop (i + 1)).map
                    (strippedOfLine (indentOf line + 2))))
              · rw [fixAux_step_block_eq f hdt hm hind fuel i rest acc true h0 heq]
                exact ih _ _ _
              · rw [fixAux_step_block_ne f hdt hm hind fuel i rest acc true h0 heq]
                exact ih _ _ _
          · by_cases hfv : f pv.2 = pv.2
            · rw [fixAux_step_inline_eq f hdt hm hind hfv]
              exact ih _ _ _
            · rw [fixAux_step_inline_ne f hdt hm hind hfv]
              exact ih _ _ _
      · rw [fixAux_step_keep f (by simpa using hdt)]
        exact ih _ _ _

theorem fixAux_unchanged (f : Str → Str) : ∀ (fuel i : Nat) (ls acc : List Str) (m : Bool),
    ls.length ≤ fuel → (fixAux f fuel i ls acc m).2 = false →
    m = false ∧ (fixAux f fuel i ls acc m).1 = acc ++ ls := by
  intro fuel
  induction fuel with
  | zero =>
    intro i ls acc m hlen h2
    have hnil : ls = [] := List.length_eq_zero.mp (Nat.le_zero.mp hlen)
    subst hnil
    exact ⟨h2, rfl⟩
  | succ fuel ih =>
    intro i ls acc m hlen h2
    cases ls with
    | nil => exact ⟨h2, by simp [fixAux]⟩
    | cons line rest =>
      have hrest : rest.length ≤ fuel := by
        simp only [List.length_cons] at hlen
        omega
      by_cases hdt : hasDescToken line = true
      · cases hm : matchDescLine line with
        | none =>
          rw [fixAux_step_none f hdt hm] at h2 ⊢
          obtain ⟨hm0, hacc⟩ := ih _ _ _ _ hrest h2
          exact ⟨hm0, by rw [hacc]; simp⟩
        | some pv =>
          by_cases hind : (pv.2 = [] ∨ pv.2 ∈ blockIndicators)
          · have hcb2len : (collectBlock (indentOf line) rest).2.length ≤ fuel := by
              have hsplit := congrArg List.length
                (collectBlock_eq_append (indentOf line) rest)
              rw [List.length_append] at hsplit
              omega
            cases h0 : (((acc ++ line :: (collectBlock (indentOf line) rest).1).drop
                (i + 1)).map (strippedOfLine (indentOf line + 2))).isEmpty with
            | true =>
              rw [fixAux_step_block_skip f hdt hm hind fuel i rest acc m h0] at h2 ⊢
              obtain ⟨hm0, hacc⟩ := ih _ _ _ _ hcb2len h2
              refine ⟨hm0, ?_⟩
              rw [hacc, List.append_assoc]
              rw [show (line :: (collectBlock (indentOf line) rest).1) ++
                  (collectBlock (indentOf line) rest).2 =
                  line :: rest by
                rw [List.cons_append, collectBlock_eq_append]]
            | false =>
              by_cases heq : f (rstrip (joinNl (((acc ++ line ::
                  (collectBlock (indentOf line) rest).1).drop (i + 1)).map
                  (strippedOfLine (indentOf line + 2))))) =
                  rstrip (joinNl (((acc ++ line ::
                    (collectBlock (indentOf line) rest).1).drop (i + 1)).map
                    (strippedOfLine (indentOf line + 2))))
              · rw [fixAux_step_block_eq f hdt hm hind fuel i rest acc m h0 heq] at h2 ⊢
                obtain ⟨hm0, hacc⟩ := ih _ _ _ _ hcb2len h2
                refine ⟨hm0, ?_⟩
                rw [hacc, List.append_assoc]
                rw [show (line :: (collectBlock (indentOf line) rest).1) ++
                    (collectBlock (indentOf line) rest).2 =
                    line :: rest by
                  rw [List.cons_append, collectBlock_eq_append]]
              · rw [fixAux_step_block_ne f hdt hm hind fuel i rest acc m h0 heq] at h2
                rw [fixAux_true f] at h2
                cases h2
          · by_cases hfv : f pv.2 = pv.2
            · rw [fixAux_step_inline_eq f hdt hm hind hfv] at h2 ⊢
              obtain ⟨hm0, hacc⟩ := ih _ _ _ _ hrest h2
              exact ⟨hm0, by rw [hacc]; simp⟩
            · rw [fixAux_step_inline_ne f hdt hm hind hfv] at h2
              rw [fixAux_true f] at h2
              cases h2
      · rw [fixAux_step_keep f (by simpa using hdt)] at h2 ⊢
        obtain ⟨hm0, hacc⟩ := ih _ _ _ _ hrest h2
        exact ⟨hm0, by rw [hacc]; simp⟩

/-! ### The all-inline regime: per-line behaviour of the scan (C1, C2) -/

theorem lineFixed_of_no_token (f : Str → Str) {line : Str}
    (h : hasDescToken line = false) : lineFixed f line = line := by
  simp [lineFixed, h]

theorem lineFixed_of_none (f : Str → Str) {line : Str} (hdt : hasDescToken line = true)
    (hm : matchDescLine line = none) : lineFixed f line = line := by
  simp [lineFixed, hdt, hm]

theorem lineFixed_of_inline (f : Str → Str) {line : Str} {pv : Str × Str}
    (hdt : hasDescToken line = true) (hm : matchDescLine line = some pv)
    (hind : ¬(pv.2 = [] ∨ pv.2 ∈ blockIndicators)) :
    lineFixed f line = pv.1 ++ f pv.2 := by
  simp [lineFixed, hdt, hm, hind]

theorem isBlockKey_true {line : Str} {pv : Str × Str} (hdt : hasDescToken line = true)
    (hm : matchDescLine line = some pv) (hind : pv.2 = [] ∨ pv.2 ∈ blockIndicators) :
    isBlockKey line = true := by
  simp [isBlockKey, hdt, hm, hind]

theorem fixAux_inline_run (f : Str → Str) : ∀ (fuel i : Nat) (ls acc : List Str) (m : Bool),
    ls.length ≤ fuel → (∀ l ∈ ls, isBlockKey l = false) →
    fixAux f fuel i ls acc m =
      (acc ++ ls.map (lineFixed f),
       m || ls.any (fun l => decide (lineFixed f l ≠ l))) := by
  intro fuel
  induction fuel with
  | zero =>
    intro i ls acc m hlen _
    have hnil : ls = [] := List.length_eq_zero.mp (Nat.le_zero.mp hlen)
    subst hnil
    simp [fixAux]
  | succ fuel ih =>
    intro i ls acc m hlen hblock
    cases ls with
    | nil => simp [fixAux]
    | cons line rest =>
      have hrest : rest.length ≤ fuel := by
        simp only [List.length_cons] at hlen
        omega
      have hbrest : ∀ l ∈ rest, isBlockKey l = false :=
        fun l hl => hblock l (by simp [hl])
      by_cases hdt : hasDescToken line = true
      · cases hm : matchDescLine line with
        | none =>
          rw [fixAux_step_none f hdt hm, ih _ _ _ _ hrest hbrest]
          simp [lineFixed_of_none f hdt hm]
        | some pv =>
          by_cases hind : (pv.2 = [] ∨ pv.2 ∈ blockIndicators)
          · exact absurd (isBlockKey_true hdt hm hind)
              (by rw [hblock line (by simp)]; exact Bool.false_ne_true)
          · have hline := matchDescLine_some_eq hm
            have hlf := lineFixed_of_inline f hdt hm hind
            by_cases hfv : f pv.2 = pv.2
            · rw [fixAux_step_inline_eq f hdt hm hind hfv, ih _ _ _ _ hrest hbrest]
              have hlf2 : lineFixed f line = line := by
                rw [hlf, hfv, hline]
              simp [hlf2]
            · rw [fixAux_step_inline_ne f hdt hm hind hfv, ih _ _ _ _ hrest hbrest]
              have hch : decide (lineFixed f line ≠ line) = true := by
                rw [decide_eq_true_iff]
                intro hcon
                rw [hlf, ← hline] at hcon
                exact hfv (List.append_cancel_left hcon)
              simp [hlf, hch]
              refine Or.inr (Or.inl ?_)
              intro hcon
              rw [← hline] at hcon
              exact hfv (List.append_cancel_left hcon)
      · rw [fixAux_step_keep f (by simpa using hdt), ih _ _ _ _ hrest hbrest]
        simp [lineFixed_of_no_token f (by simpa using hdt)]

theorem fixFilePy_inline (f : Str → Str) (content : Str)
    (hb : ∀ l ∈ splitNl content, isBlockKey l = false) :
    fixFilePy f content =
      ((splitNl content).any (fun l => decide (lineFixed f l ≠ l)),
       if (splitNl content).any (fun l => decide (lineFixed f l ≠ l)) = true
       then joinNl ((splitNl content).map (lineFixed f)) else content) := by
  have h := fixAux_inline_run f (splitNl content).length 0 (splitNl content) [] false
    (le_refl _) hb
  simp only [fixFilePy, h]
  simp

theorem lineFixed_cases (f : Str → Str) {l : Str} (hb : isBlockKey l = false)
    (Hf2 : ∀ (c : Char) (r : Str), pyIsSpace c = false →
      ∃ d r', f (c :: r) = d :: r' ∧ pyIsSpace d = false) :
    lineFixed f l = l ∨
      ∃ pv c r d r2, matchDescLine l = some pv ∧ hasDescToken l = true ∧
        ¬(pv.2 = [] ∨ pv.2 ∈ blockIndicators) ∧ pv.2 = c :: r ∧ pyIsSpace c = false ∧
        f pv.2 = d :: r2 ∧ pyIsSpace d = false ∧ lineFixed f l = pv.1 ++ (d :: r2) := by
  by_cases hdt : hasDescToken l = true
  · cases hm : matchDescLine l with
    | none => exact Or.inl (lineFixed_of_none f hdt hm)
    | some pv =>
      by_cases hind : (pv.2 = [] ∨ pv.2 ∈ blockIndicators)
      · exact absurd (isBlockKey_true hdt hm hind)
          (by rw [hb]; exact Bool.false_ne_true)
      · obtain ⟨ws, tw, hp1, hws, htw, hval⟩ := matchDescLine_shape hm
        have hvne : pv.2 ≠ [] := fun he => hind (Or.inl he)
        obtain ⟨c, r, hv, hc⟩ : ∃ c r, pv.2 = c :: r ∧ pyIsSpace c = false := by
          rcases hval with he | ⟨c, r, hv2, hc2⟩
          · exact absurd he hvne
          · exact ⟨c, r, hv2, hc2⟩
        obtain ⟨d, r2, hF, hd⟩ := Hf2 c r hc
        refine Or.inr ⟨pv, c, r, d, r2, rfl, hdt, hind, hv, hc, ?_, hd, ?_⟩
        · rw [hv]
          exact hF
        · rw [lineFixed_of_inline f hdt hm hind, hv, hF]
  · exact Or.inl (lineFixed_of_no_token f (by simpa using hdt))

theorem second_value_not_block (f : Str → Str)
    (Hf3 : ∀ (c : Char) (r : Str), pyIsSpace c = false →
      f (c :: r) ∈ blockIndicators → (c :: r) ∈ blockIndicators)
    {pv : Str × Str} {c d : Char} {r r2 : Str}
    (hind : ¬(pv.2 = [] ∨ pv.2 ∈ blockIndicators)) (hv : pv.2 = c :: r)
    (hc : pyIsSpace c = false) (hF : f pv.2 = d :: r2) :
    ¬((d :: r2 : Str) = [] ∨ (d :: r2 : Str) ∈ blockIndicators) := by
  have hF2 : f (c :: r) = d :: r2 := by
    rw [← hv]
    exact hF
  rintro (he2 | hmem)
  · cases he2
  · apply hind
    rw [hv]
    exact Or.inr (Hf3 c r hc (by rw [hF2]; exact hmem))

theorem lineFixed_nlFree (f : Str → Str)
    (Hnl : ∀ v : Str, '\n' ∉ v → '\n' ∉ f v) {l : Str} (hfree : '\n' ∉ l) :
    '\n' ∉ lineFixed f l := by
  by_cases hdt : hasDescToken l = true
  · cases hm : matchDescLine l with
    | none =>
      rw [lineFixed_of_none f hdt hm]
      exact hfree
    | some pv =>
      by_cases hind : (pv.2 = [] ∨ pv.2 ∈ blockIndicators)
      · rw [show lineFixed f l = l from by simp [lineFixed, hdt, hm, hind]]
        exact hfree
      · rw [lineFixed_of_inline f hdt hm hind]
        have hline := matchDescLine_some_eq hm
        intro hmem
        rcases List.mem_append.mp hmem with h1 | h2
        · exact hfree (by rw [← hline]; exact List.mem_append_left _ h1)
        · have hv2 : '\n' ∉ pv.2 := fun hmem2 =>
            hfree (by rw [← hline]; exact List.mem_append_right _ hmem2)
          exact Hnl pv.2 hv2 h2
  · rw [lineFixed_of_no_token f (by simpa using hdt)]
    exact hfree

theorem lineFixed_noBlockKey (f : Str → Str)
    (Hf2 : ∀ (c : Char) (r : Str), pyIsSpace c = false →
      ∃ d r', f (c :: r) = d :: r' ∧ pyIsSpace d = false)
    (Hf3 : ∀ (c : Char) (r : Str), pyIsSpace c = false →
      f (c :: r) ∈ blockIndicators → (c :: r) ∈ blockIndicators)
    {l : Str} (hb : isBlockKey l = false) :
    isBlockKey (lineFixed f l) = false := by
  rcases lineFixed_cases f hb Hf2 with he | ⟨pv, c, r, d, r2, hm, hdt, hind, hv, hc, hF, hd, hlf⟩
  · rw [he]
    exact hb
  · rw [hlf]
    have hm2 := @matchDescLine_self_append l pv hm d r2 hd
    have hdt2 := hasDescToken_pfx_append (d :: r2) hm
    have hnotind := second_value_not_block f Hf3 hind hv hc hF
    simp [isBlockKey, hdt2, hm2, hnotind]
    exact fun hmem2 => hnotind (Or.inr hmem2)

theorem lineFixed_idem (f : Str → Str) (Hf1 : ∀ t : Str, f (f t) = f t)
    (Hf2 : ∀ (c : Char) (r : Str), pyIsSpace c = false →
      ∃ d r', f (c :: r) = d :: r' ∧ pyIsSpace d = false)
    (Hf3 : ∀ (c : Char) (r : Str), pyIsSpace c = false →
      f (c :: r) ∈ blockIndicators → (c :: r) ∈ blockIndicators)
    {l : Str} (hb : isBlockKey l = false) :
    lineFixed f (lineFixed f l) = lineFixed f l := by
  rcases lineFixed_cases f hb Hf2 with he | ⟨pv, c, r, d, r2, hm, hdt, hind, hv, hc, hF, hd, hlf⟩
  · rw [he]
    exact he
  · rw [hlf]
    have hm2 := @matchDescLine_self_append l pv hm d r2 hd
    have hdt2 := hasDescToken_pfx_append (d :: r2) hm
    have hnotind := second_value_not_block f Hf3 hind hv hc hF
    rw [lineFixed_of_inline f hdt2 hm2 hnotind]
    have hff : f (d :: r2) = d :: r2 := by
      have h1 := Hf1 pv.2
      rw [hF] at h1
      exact h1
    rw [hff]

theorem inline_second_run (f : Str → Str)
    (Hf1 : ∀ t : Str, f (f t) = f t)
    (Hf2 : ∀ (c : Char) (r : Str), pyIsSpace c = false →
      ∃ d r', f (c :: r) = d :: r' ∧ pyIsSpace d = false)
    (Hf3 : ∀ (c : Char) (r : Str), pyIsSpace c = false →
      f (c :: r) ∈ blockIndicators → (c :: r) ∈ blockIndicators)
    (Hnl : ∀ v : Str, '\n' ∉ v → '\n' ∉ f v)
    (content : Str) (hb : ∀ l ∈ splitNl content, isBlockKey l = false) :
    fixFilePy f (fixFilePy f content).2 = (false, (fixFilePy f content).2) ∧
    fixFilePyWrites f (fixFilePy f content).2 = [] := by
  have htop := fixFilePy_inline f content hb
  cases hB : (splitNl content).any (fun l => decide (lineFixed f l ≠ l)) with
  | false =>
    have h1 : fixFilePy f content = (false, content) := by
      rw [htop, hB]
      simp
    rw [h1]
    exact ⟨h1, by simp [fixFilePyWrites, h1]⟩
  | true =>
    have h2 : (fixFilePy f content).2 =
        joinNl ((splitNl content).map (lineFixed f)) := by
      rw [htop, hB]
      simp
    have hfree : ∀ l ∈ (splitNl content).map (lineFixed f), '\n' ∉ l := by
      intro l hl
      obtain ⟨l0, hl0, rfl⟩ := List.mem_map.mp hl
      exact lineFixed_nlFree f Hnl (nlFree_splitNl content l0 hl0)
    have houtne : (splitNl content).map (lineFixed f) ≠ [] := by
      intro he
      exact splitNl_ne_nil content (List.map_eq_nil_iff.mp he)
    have hsj : splitNl (joinNl ((splitNl content).map (lineFixed f))) =
        (splitNl content).map (lineFixed f) := splitNl_joinNl houtne hfree
    have hb2 : ∀ l ∈ (splitNl content).map (lineFixed f), isBlockKey l = false := by
      intro l hl
      obtain ⟨l0, hl0, rfl⟩ := List.mem_map.mp hl
      exact lineFixed_noBlockKey f Hf2 Hf3 (hb l0 hl0)
    have htop2 := fixFilePy_inline f (joinNl ((splitNl content).map (lineFixed f)))
      (by rw [hsj]; exact hb2)
    have hB2 : (splitNl (joinNl ((splitNl content).map (lineFixed f)))).any
        (fun l => decide (lineFixed f l ≠ l)) = false := by
      rw [hsj]
      apply List.any_eq_false.mpr
      intro l hl
      obtain ⟨l0, hl0, rfl⟩ := List.mem_map.mp hl
      simp [lineFixed_idem f Hf1 Hf2 Hf3 (hb l0 hl0)]
    rw [h2]
    constructor
    · rw [htop2, hB2]
      simp
    · simp only [fixFilePyWrites, htop2, hB2]
      simp

/-- C1 counterexample: `fix_yaml_file_in_place` does not confine its rewrites
to description value spans.  `block_start` is an index into the input
`lines`, yet `new_lines` — which may already be shorter or longer after an
earlier replacement — is sliced and truncated with it; with a line-count-
increasing fix function the engine reads past the current block and deletes
previously emitted lines: on the file below the non-description line
`"keep: x"` disappears from the output. -/
theorem c1_counterexample :
    ("keep: x").toList ∈
      splitNl (("description: |\n  a\nkeep: x\ndescription: |\n  b").toList) ∧
    hasDescToken (("keep: x").toList) = false ∧
    (fixFilePy growFix
      (("description: |\n  a\nkeep: x\ndescription: |\n  b").toList)).1 = true ∧
    ("keep: x").toList ∉
      splitNl ((fixFilePy growFix
        (("description: |\n  a\nkeep: x\ndescription: |\n  b").toList)).2) := by
  refine ⟨by decide, by decide, by decide, by decide⟩

/-- C1 (amended): the write discipline and the no-change frame hold of
`fix_yaml_file_in_place` as implemented: when the scan changes nothing the
function returns `false`, the scanned lines reassemble the input exactly,
the content is left byte-for-byte unchanged and no write is performed; when
it reports a change there is exactly one full-content write.  On a file
whose descriptions are all inline (no block-scalar description lines) the
scan is exactly a per-line map: `modified` is "some inline description value
changed", the rewritten content is the lines with each inline value replaced
by `fixFn value` behind its unchanged prefix, and every line without a
`description:` token passes through unchanged.  (For block-scalar
descriptions the `block_start` aliasing breaks the span-confinement — see
the counterexample.) -/
theorem c1_engine_write_discipline (fixFn : Str → Str) (content : Str) :
    ((fixFilePy fixFn content).1 = false →
      (fixAux fixFn (splitNl content).length 0 (splitNl content) [] false).1 =
        splitNl content ∧
      (fixFilePy fixFn content).2 = content ∧
      fixFilePyWrites fixFn content = []) ∧
    ((fixFilePy fixFn content).1 = true →
      fixFilePyWrites fixFn content = [(fixFilePy fixFn content).2]) ∧
    ((∀ l ∈ splitNl content, isBlockKey l = false) →
      (fixFilePy fixFn content).1 =
        (splitNl content).any (fun l => decide (lineFixed fixFn l ≠ l)) ∧
      ((fixFilePy fixFn content).1 = true →
        (fixFilePy fixFn content).2 =
          joinNl ((splitNl content).map (lineFixed fixFn))) ∧
      (∀ l : Str, hasDescToken l = false → lineFixed fixFn l = l)) := by
  refine ⟨?_, ?_, ?_⟩
  · intro hflag
    have h2 : (fixAux fixFn (splitNl content).length 0 (splitNl content) [] false).2 =
        false := hflag
    obtain ⟨-, hacc⟩ := fixAux_unchanged fixFn (splitNl content).length 0
      (splitNl content) [] false (le_refl _) h2
    refine ⟨by rw [hacc]; simp, ?_, ?_⟩
    · simp only [fixFilePy, h2]
      simp
    · simp [fixFilePyWrites, hflag]
  · intro hflag
    simp [fixFilePyWrites, hflag]
  · intro hb
    have htop := fixFilePy_inline fixFn content hb
    refine ⟨by rw [htop], ?_, fun l h => lineFixed_of_no_token fixFn h⟩
    intro hflag
    rw [htop] at hflag ⊢
    simp only at hflag
    rw [hflag] at htop ⊢
    simp

/-- Witness for C1 (amended) at concrete inputs: a file without a fixable
description is returned byte-for-byte with no write; a file with a changed
inline description is written back once, as the per-line rewrite. -/
theorem c1_witness :
    (fixFilePy capitalFix (("a: b").toList)).2 = ("a: b").toList ∧
    fixFilePyWrites capitalFix (("a: b").toList) = [] ∧
    fixFilePyWrites capitalFix (("description: hello").toList) =
      [(fixFilePy capitalFix (("description: hello").toList)).2] ∧
    (fixFilePy capitalFix (("description: hello").toList)).2 =
      joinNl ((splitNl (("description: hello").toList)).map (lineFixed capitalFix)) := by
  refine ⟨((c1_engine_write_discipline capitalFix (("a: b").toList)).1 (by decide)).2.1,
    ((c1_engine_write_discipline capitalFix (("a: b").toList)).1 (by decide)).2.2,
    (c1_engine_write_discipline capitalFix
      (("description: hello").toList)).2.1 (by decide),
    ((c1_engine_write_discipline capitalFix
      (("description: hello").toList)).2.2 (by decide)).2.1 (by decide)⟩

/-- C2 counterexample: the output of a first fix run need not be a fixed
point of the patch engine.  With `period` on `"description: - a.."` each run
strips one period from the inline list value, so the second run reports
`modified = true` and writes again; with `capital` on a file with two
block-scalar descriptions, the first run's line-count shrink misaligns the
second block (the aliased `block_start`), the partially fixed block is
re-read whole by the second run, and the second run modifies the file
again. -/
theorem c2_counterexample :
    (fixFilePy periodFix
      (fixFilePy periodFix (("description: - a..").toList)).2).1 = true ∧
    fixFilePyWrites periodFix
      (fixFilePy periodFix (("description: - a..").toList)).2 ≠ [] ∧
    (fixFilePy capitalFix
      (fixFilePy capitalFix
        (("description: |\n\n  aaa\ndescription: |\n  bbb\n  ccc").toList)).2).1 =
      true := by
  refine ⟨by decide, by decide, by decide⟩

/-- C2 (amended): for the rules `capital` and `spaces`, on every file whose
descriptions are all inline (no block-scalar description lines), the output
of a first run of `fix_yaml_file_in_place` is a fixed point of the patch
engine: a second run makes no replacement, returns `modified = false`, and
performs zero writes.  For `period` this fails even on inline descriptions,
and for block-scalar descriptions it fails even for `capital` (see the
counterexample). -/
theorem c2_inline_second_run_fixpoint :
    (∀ content : Str, (∀ l ∈ splitNl content, isBlockKey l = false) →
      fixFilePy capitalFix (fixFilePy capitalFix content).2 =
        (false, (fixFilePy capitalFix content).2) ∧
      fixFilePyWrites capitalFix (fixFilePy capitalFix content).2 = []) ∧
    (∀ content : Str, (∀ l ∈ splitNl content, isBlockKey l = false) →
      fixFilePy spacesFix (fixFilePy spacesFix content).2 =
        (false, (fixFilePy spacesFix content).2) ∧
      fixFilePyWrites spacesFix (fixFilePy spacesFix content).2 = []) := by
  constructor
  · intro content hb
    exact inline_second_run capitalFix capitalFix_fixpoint
      (fun c r hc => capitalFix_head r hc)
      (fun c r hc h => capitalFix_indicator hc h)
      (fun v hv => capitalFix_nl_free hv) content hb
  · intro content hb
    exact inline_second_run spacesFix spacesFix_idem
      (fun c r hc =>
        ⟨c, subDoubleSpace (.scanning (allowedAfter c)) r, spacesFix_cons c r, hc⟩)
      (fun c r hc h => spacesFix_indicator h)
      (fun v hv => spacesFix_nl_free hv) content hb

/-- Witness for C2 (amended) at concrete all-inline files. -/
theorem c2_witness :
    fixFilePy capitalFix
      (fixFilePy capitalFix (("description: hello\nname: x").toList)).2 =
      (false, (fixFilePy capitalFix (("description: hello\nname: x").toList)).2) ∧
    fixFilePyWrites spacesFix
      (fixFilePy spacesFix (("description: a  b").toList)).2 = [] :=
  ⟨(c2_inline_second_run_fixpoint.1 (("description: hello\nname: x").toList)
      (by decide)).1,
   (c2_inline_second_run_fixpoint.2 (("description: a  b").toList) (by decide)).2⟩
